import Mathlib

/-!
Zip alignment tool: a shallow embedding of `zipalign/ZipAlign.cpp`.

The embedding follows the C++ source function by function.

* C `int` values are 32-bit and `long` and `off_t` values 64-bit two's-complement
  integers, represented by the `Int` they denote.  The sum `fileOffset + bias`
  (line 59), the store into `int padding` (line 60) and `bias += padding`
  (line 70) wrap around at the width of their type (`addLong`, `toInt`,
  `addInt`).  The C remainder operator is the truncating remainder `Int.tmod`,
  and a remainder by zero is the explicit fault `Fault.divisionByZero`.
* `ZipFile` and `ZipEntry` are declared in `ZipFile.h`, which is not part of
  the sources at hand.  A source archive is represented by the values of the
  two accessors the tool calls on it (`getNumEntries`, `getEntryByIndex`), an
  entry by the values of its accessors, and the destination archive by an
  abstract state that is threaded through `ZipFile::add`.
* The calls made to the collaborators (`access`, `ZipFile::open`,
  `getEntryByIndex`, `ZipFile::add`) are recorded, in order, in a ghost log
  that never influences control flow.
-/

namespace ZipAlign

/-- Status code of the archive library (`status_t`). -/
abbrev status_t := Int

/-- Modelled from the spec: the archive library's success status (`NO_ERROR`
of `utils/Errors.h`, not among the sources).  The tool only ever compares a
status with this value. -/
def NO_ERROR : status_t := 0

/-- Ways in which an execution leaves defined behaviour. -/
inductive Fault where
  | divisionByZero
  | nullDereference
  deriving DecidableEq, Repr

/-- The C expression `a % b` on integers: truncating remainder, undefined for `b = 0`. -/
def cRem (a b : Int) : Except Fault Int :=
  if b = 0 then .error .divisionByZero else .ok (a.tmod b)

/-- Least value of a C `int` (32 bits). -/
def INT_MIN : Int := -2147483648

/-- Greatest value of a C `int` (32 bits). -/
def INT_MAX : Int := 2147483647

/-- Least value of a C `long` and of `off_t` (64 bits). -/
def LONG_MIN : Int := -9223372036854775808

/-- Greatest value of a C `long` and of `off_t` (64 bits). -/
def LONG_MAX : Int := 9223372036854775807

/-- Reduction of an integer to the 32-bit two's-complement range. -/
def wrapInt (x : Int) : Int := (x + 2147483648) % 4294967296 - 2147483648

/-- Reduction of an integer to the 64-bit two's-complement range. -/
def wrapLong (x : Int) : Int :=
  (x + 9223372036854775808) % 18446744073709551616 - 9223372036854775808

/-- The C sum of two `int` values: the exact sum, wrapped around when it leaves the
range of `int`.  On operands that are no `int` values, which no execution supplies,
the sum is left exact. -/
def addInt (a b : Int) : Int :=
  if INT_MIN ≤ a ∧ a ≤ INT_MAX ∧ INT_MIN ≤ b ∧ b ≤ INT_MAX then wrapInt (a + b) else a + b

/-- The C sum of two `long` values (an `off_t` and an `int` promoted to `long`): the
exact sum, wrapped around when it leaves the range of `long`.  On operands that are
no `long` values, which no execution supplies, the sum is left exact. -/
def addLong (a b : Int) : Int :=
  if LONG_MIN ≤ a ∧ a ≤ LONG_MAX ∧ LONG_MIN ≤ b ∧ b ≤ LONG_MAX then wrapLong (a + b)
  else a + b

/-- The conversion of a `long` value to `int` on assignment: the value reduced to the
range of `int`.  A value that is no `long` value, which no execution supplies, is
left as it is. -/
def toInt (v : Int) : Int :=
  if LONG_MIN ≤ v ∧ v ≤ LONG_MAX then wrapInt v else v

/-- Modelled from the spec: an Entry (class `ZipEntry`, declared outside the sources
at hand), as the values of the accessors the tool calls on it: `getFileName()`,
`isCompressed()` and `getFileOffset()`. -/
structure ZipEntry where
  fileName : String
  isCompressed : Bool
  fileOffset : Int
  deriving DecidableEq, Repr

/-- Modelled from the spec: the read view of an Archive (class `ZipFile` of
`ZipFile.h`, not among the sources): the values of `getNumEntries()` and of
`getEntryByIndex(i)`, where `none` is the `NULL` pointer. -/
structure ZipFile where
  numEntries : Int
  getEntryByIndex : Int → Option ZipEntry

/-- The archive whose entries are exactly the given list, in order; an index out of
range yields no entry. -/
def ZipFile.ofList (es : List ZipEntry) : ZipFile where
  numEntries := es.length
  getEntryByIndex := fun i => if i < 0 then none else es[i.toNat]?

/-- Modelled from the spec: the open modes of `ZipFile::open` (enumeration of
`ZipFile.h`, not among the sources).  A mode word `a|b|c` is the list `[a, b, c]`. -/
inductive OpenFlag where
  | kOpenReadOnly
  | kOpenReadWrite
  | kOpenCreate
  | kOpenTruncate
  deriving DecidableEq, Repr

/-- The collaborators of the tool, taken as parameters: the file system and the
archive library, neither of which is among the sources.  `σ` is the state of a
destination archive. -/
structure Env (σ : Type) where
  /-- Result of `access(path, F_OK)`; `0` when the path exists. -/
  access : String → Int
  /-- Outcome of `ZipFile::open` on an archive that is then read. -/
  openRead : String → List OpenFlag → status_t × ZipFile
  /-- Outcome of `ZipFile::open` on an archive that is then written. -/
  openWrite : String → List OpenFlag → status_t × σ
  /-- Outcome of `pZout->add(pZin, pEntry, padding, &pNewEntry)`. -/
  add : σ → ZipFile → ZipEntry → Int → status_t × σ

/-- A call to a collaborator, with its result. -/
inductive Event where
  | access (path : String) (result : Int)
  | zipOpen (path : String) (flags : List OpenFlag) (status : status_t)
  | getEntryByIndex (i : Int) (pEntry : Option ZipEntry)
  | add (pEntry : ZipEntry) (padding : Int) (status : status_t)
  deriving DecidableEq, Repr

/-- Whether a recorded call reported success. -/
def Event.succeeded : Event → Bool
  | .access _ _ => true
  | .zipOpen _ _ status => decide (status = NO_ERROR)
  | .getEntryByIndex _ pEntry => pEntry.isSome
  | .add _ _ status => decide (status = NO_ERROR)

/-- Ghost record of one entry that was copied: the entry, the padding handed to
`add`, and the value of `bias` after `bias += padding`. -/
structure Copied where
  pEntry : ZipEntry
  padding : Int
  bias : Int
  deriving DecidableEq, Repr

/-- The locals of `copyAndAlign` at the head of its loop, with the ghost log. -/
structure CopyState (σ : Type) where
  i : Int
  bias : Int
  zout : σ
  log : List Event
  copied : List Copied

/-- Lines 59-60 of `copyAndAlign`:
`padding = (alignment - (newOffset % alignment)) % alignment`. -/
def padding (alignment newOffset : Int) : Except Fault Int :=
  match cRem newOffset alignment with
  | .error f => .error f
  | .ok r => cRem (alignment - r) alignment

/-- Lines 39 and 47-65 of `copyAndAlign`: the value of the local `int padding` when
`add` is called for entry `e` while the bias is `bias`: 0 for a compressed entry,
otherwise the padding of the projected offset `fileOffset + bias`, a `long`, stored
into the `int`. -/
def entryPadding (alignment bias : Int) (e : ZipEntry) : Except Fault Int :=
  if e.isCompressed then .ok 0
  else
    match padding alignment (addLong e.fileOffset bias) with
    | .error f => .error f
    | .ok v => .ok (toInt v)

/-- How one pass through the loop body of `copyAndAlign` ends. -/
inductive Step (σ : Type) where
  | ret (code : Int) (s : CopyState σ)
  | next (s : CopyState σ)

/-- The state in which a pass through the loop body ends. -/
def Step.state {σ : Type} : Step σ → CopyState σ
  | .ret _ s => s
  | .next s => s

/-- The body of the `for` loop of `copyAndAlign` (lines 38-73), including the `i++`. -/
def copyBody {σ : Type} (env : Env σ) (pZin : ZipFile) (alignment : Int)
    (s : CopyState σ) : Except Fault (Step σ) :=
  let r := pZin.getEntryByIndex s.i
  let log1 := s.log ++ [Event.getEntryByIndex s.i r]
  match r with
  | none => .ok (.ret 1 { s with log := log1 })
  | some pEntry =>
    match entryPadding alignment s.bias pEntry with
    | .error f => .error f
    | .ok pad =>
      let res := env.add s.zout pZin pEntry pad
      let log2 := log1 ++ [Event.add pEntry pad res.1]
      if res.1 ≠ NO_ERROR then
        .ok (.ret 1 { s with zout := res.2, log := log2 })
      else
        .ok (.next { i := s.i + 1, bias := addInt s.bias pad, zout := res.2, log := log2,
                     copied := s.copied ++ [⟨pEntry, pad, addInt s.bias pad⟩] })

/-- The `for` loop of `copyAndAlign`; the first argument is the number of
iterations left, `numEntries - i`.  When none is left the function returns 0. -/
def copyLoop {σ : Type} (env : Env σ) (pZin : ZipFile) (alignment : Int) :
    Nat → CopyState σ → Except Fault (Int × CopyState σ)
  | 0, s => .ok (0, s)
  | n + 1, s =>
    match copyBody env pZin alignment s with
    | .error f => .error f
    | .ok (.ret code s1) => .ok (code, s1)
    | .ok (.next s1) => copyLoop env pZin alignment n s1

/-- The locals of `copyAndAlign` when its loop is entered: `i = 0`, `bias = 0`. -/
def copyInit {σ : Type} (pZout : σ) : CopyState σ :=
  { i := 0, bias := 0, zout := pZout, log := [], copied := [] }

/-- The function `copyAndAlign(pZin, pZout, alignment)`: the return value and the final state. -/
def copyAndAlign {σ : Type} (env : Env σ) (pZin : ZipFile) (pZout : σ) (alignment : Int) :
    Except Fault (Int × CopyState σ) :=
  copyLoop env pZin alignment pZin.numEntries.toNat (copyInit pZout)

/-- The function `process(inFileName, outFileName, alignment, force)`: the
return value and the log of collaborator calls. -/
def process {σ : Type} (env : Env σ) (inFileName outFileName : String) (alignment : Int)
    (force : Bool) : Except Fault (Int × List Event) :=
  if inFileName = outFileName then .ok (1, [])
  else
    let log1 := if force then [] else [Event.access outFileName (env.access outFileName)]
    if (!force && decide (env.access outFileName = 0)) = true then .ok (1, log1)
    else
      let zin := env.openRead inFileName [.kOpenReadOnly]
      let log2 := log1 ++ [Event.zipOpen inFileName [.kOpenReadOnly] zin.1]
      if zin.1 ≠ NO_ERROR then .ok (1, log2)
      else
        let flags := [OpenFlag.kOpenReadWrite, OpenFlag.kOpenCreate, OpenFlag.kOpenTruncate]
        let zout := env.openWrite outFileName flags
        let log3 := log2 ++ [Event.zipOpen outFileName flags zout.1]
        if zout.1 ≠ NO_ERROR then .ok (1, log3)
        else
          match copyAndAlign env zin.2 zout.2 alignment with
          | .error f => .error f
          | .ok (result, s) => .ok (result, log3 ++ s.log)

/-- A line of the report `verify` prints to standard output. -/
inductive Line where
  | verifying (fileName : String) (alignment : Int)
  | okCompressed (offset : Int) (fileName : String)
  | bad (offset : Int) (fileName : String) (remainder : Int)
  | ok (offset : Int) (fileName : String)
  | verification (failed : Bool)
  deriving DecidableEq, Repr

/-- The locals of `verify` at the head of its loop, with the lines printed so far. -/
structure VerifyState where
  i : Int
  foundBad : Bool
  out : List Line
  deriving DecidableEq, Repr

/-- The body of the `for` loop of `verify` (lines 143-164), including the `i++`. -/
def verifyBody (zipFile : ZipFile) (alignment : Int) (verbose : Bool) (s : VerifyState) :
    Except Fault VerifyState :=
  match zipFile.getEntryByIndex s.i with
  | none => .error .nullDereference
  | some pEntry =>
    if pEntry.isCompressed then
      .ok { i := s.i + 1, foundBad := s.foundBad,
            out := if verbose then s.out ++ [Line.okCompressed pEntry.fileOffset pEntry.fileName]
                   else s.out }
    else
      let offset := pEntry.fileOffset
      match cRem offset alignment with
      | .error f => .error f
      | .ok r =>
        if r ≠ 0 then
          .ok { i := s.i + 1, foundBad := true,
                out := if verbose then s.out ++ [Line.bad offset pEntry.fileName r] else s.out }
        else
          .ok { i := s.i + 1, foundBad := s.foundBad,
                out := if verbose then s.out ++ [Line.ok offset pEntry.fileName] else s.out }

/-- The `for` loop of `verify`; the first argument is the number of iterations left. -/
def verifyLoop (zipFile : ZipFile) (alignment : Int) (verbose : Bool) :
    Nat → VerifyState → Except Fault VerifyState
  | 0, s => .ok s
  | n + 1, s =>
    match verifyBody zipFile alignment verbose s with
    | .error f => .error f
    | .ok s1 => verifyLoop zipFile alignment verbose n s1

/-- The function `verify(fileName, alignment, verbose)`: the return value and
the report printed to standard output. -/
def verify {σ : Type} (env : Env σ) (fileName : String) (alignment : Int) (verbose : Bool) :
    Except Fault (Int × List Line) :=
  let out0 := if verbose then [Line.verifying fileName alignment] else []
  let zipFile := env.openRead fileName [.kOpenReadOnly]
  if zipFile.1 ≠ NO_ERROR then .ok (1, out0)
  else
    match verifyLoop zipFile.2 alignment verbose zipFile.2.numEntries.toNat
        { i := 0, foundBad := false, out := out0 } with
    | .error f => .error f
    | .ok s =>
      .ok (if s.foundBad then 1 else 0,
           if verbose then s.out ++ [Line.verification s.foundBad] else s.out)

/-- The exported function `zipalign(in_filename, out_filename, alignment, force)`;
`none` is a null file name. -/
def zipalign {σ : Type} (env : Env σ) (in_filename out_filename : Option String)
    (alignment : Int) (force : Int) : Except Fault (Int × List Event) :=
  match in_filename, out_filename with
  | some inName, some outName =>
    match process env inName outName alignment (decide (force ≠ 0)) with
    | .error f => .error f
    | .ok (result, log) => .ok (if result ≠ 0 then 0 else 1, log)
  | _, _ => .ok (0, [])

/-- The exported function `zipalign_is_aligned(filename, alignment)`. -/
def zipalign_is_aligned {σ : Type} (env : Env σ) (filename : Option String) (alignment : Int) :
    Except Fault Int :=
  match filename with
  | none => .ok 0
  | some name =>
    match verify env name alignment false with
    | .error f => .error f
    | .ok (result, _) => .ok (if result ≠ 0 then 0 else 1)

/-! ## Auxiliary notions used to state and prove the properties -/

/-- The padding of entry `e` at bias `bias` computed without wrap-around. -/
def entryPaddingExact (alignment bias : Int) (e : ZipEntry) : Except Fault Int :=
  if e.isCompressed then .ok 0 else padding alignment (e.fileOffset + bias)

/-- The records `cs` are what consecutive successful iterations write, starting at
index `i` with bias `b`. -/
def CopiedFrom (pZin : ZipFile) (alignment : Int) : Int → Int → List Copied → Prop
  | _, _, [] => True
  | i, b, c :: cs =>
    pZin.getEntryByIndex i = some c.pEntry ∧ entryPadding alignment b c.pEntry = .ok c.padding ∧
      c.bias = addInt b c.padding ∧ CopiedFrom pZin alignment (i + 1) c.bias cs

/-- The relation `CopiedFrom` for a pass whose arithmetic never wraps around: every
padding and every bias is the exact value. -/
def CopiedExact (pZin : ZipFile) (alignment : Int) : Int → Int → List Copied → Prop
  | _, _, [] => True
  | i, b, c :: cs =>
    pZin.getEntryByIndex i = some c.pEntry ∧
      entryPaddingExact alignment b c.pEntry = .ok c.padding ∧
      c.bias = b + c.padding ∧ CopiedExact pZin alignment (i + 1) c.bias cs

/-- No arithmetic of the pass that wrote the records `cs` wrapped around: the
alignment is a value of an `int`, the paddings sum to at most `INT_MAX`, so that no
`bias += padding` overflowed, and the projected offset of every non-compressed
entry, its source offset plus the bias before the entry, is at most `LONG_MAX`. -/
def NoOverflow (alignment : Int) (cs : List Copied) : Prop :=
  alignment ≤ INT_MAX ∧ (cs.map (fun c => c.padding)).sum ≤ INT_MAX ∧
    ∀ c ∈ cs, c.pEntry.isCompressed = false →
      c.pEntry.fileOffset + (c.bias - c.padding) ≤ LONG_MAX

/-- The calls logged by consecutive successful iterations that start at index `i`. -/
def logOf : Int → List Copied → List Event
  | _, [] => []
  | i, c :: cs =>
    Event.getEntryByIndex i (some c.pEntry) :: Event.add c.pEntry c.padding NO_ERROR
      :: logOf (i + 1) cs

/-- The value of `bias` after the records `cs`, starting from `b`. -/
def biasAfter : Int → List Copied → Int
  | b, [] => b
  | _, c :: cs => biasAfter c.bias cs

/-- The calls logged by the iteration at index `k` that ends the pass with `return 1`. -/
def FailTail (pZin : ZipFile) (alignment : Int) (k b : Int) (tail : List Event) : Prop :=
  (pZin.getEntryByIndex k = none ∧ tail = [Event.getEntryByIndex k none]) ∨
  ∃ e p st, pZin.getEntryByIndex k = some e ∧ entryPadding alignment b e = .ok p ∧
    st ≠ NO_ERROR ∧ tail = [Event.getEntryByIndex k (some e), Event.add e p st]

/-- Whether `verify` flags the entry: it is not compressed and its offset leaves a remainder. -/
def misaligned (alignment : Int) (e : ZipEntry) : Bool :=
  !e.isCompressed && decide (e.fileOffset.tmod alignment ≠ 0)

/-- The report line `verify` prints for an entry in verbose mode. -/
def reportLine (alignment : Int) (e : ZipEntry) : Line :=
  if e.isCompressed then Line.okCompressed e.fileOffset e.fileName
  else if e.fileOffset.tmod alignment ≠ 0 then
    Line.bad e.fileOffset e.fileName (e.fileOffset.tmod alignment)
  else Line.ok e.fileOffset e.fileName

/-- The entries of the destination archive under the copier's layout assumption: each
copied entry lies at its source offset plus the bias accumulated once it was processed. -/
def destination (cs : List Copied) : List ZipEntry :=
  cs.map (fun c => { c.pEntry with fileOffset := c.pEntry.fileOffset + c.bias })

/-- Every one of the `n` source entries from index `i` on is retrieved and copied
without error, stated on the collaborators alone: the entry at the index is present,
its padding is computed, `add` applied to that very entry and to the destination
reached so far reports `NO_ERROR`, and so on from the next index, the next bias
and the destination that `add` returned. -/
def CopiesAll {σ : Type} (env : Env σ) (pZin : ZipFile) (alignment : Int) :
    Nat → Int → Int → σ → Prop
  | 0, _, _, _ => True
  | n + 1, i, bias, zout =>
    ∃ pEntry pad, pZin.getEntryByIndex i = some pEntry ∧
      entryPadding alignment bias pEntry = .ok pad ∧
      (env.add zout pZin pEntry pad).1 = NO_ERROR ∧
      CopiesAll env pZin alignment n (i + 1) (addInt bias pad)
        (env.add zout pZin pEntry pad).2

/-- The success condition of the align entry point: both names are given and differ,
the output is absent or `force` is set, both archives open, and every source entry,
from index 0 to `numEntries - 1`, is retrieved and copied without error. -/
def AlignSucceeds {σ : Type} (env : Env σ) (in_filename out_filename : Option String)
    (alignment force : Int) : Prop :=
  ∃ inName outName, in_filename = some inName ∧ out_filename = some outName ∧
    inName ≠ outName ∧ (env.access outName ≠ 0 ∨ force ≠ 0) ∧
    (env.openRead inName [.kOpenReadOnly]).1 = NO_ERROR ∧
    (env.openWrite outName [.kOpenReadWrite, .kOpenCreate, .kOpenTruncate]).1 = NO_ERROR ∧
    CopiesAll env (env.openRead inName [.kOpenReadOnly]).2 alignment
      (env.openRead inName [.kOpenReadOnly]).2.numEntries.toNat 0 0
      (env.openWrite outName [.kOpenReadWrite, .kOpenCreate, .kOpenTruncate]).2

/-- Lines 91-113 of `process`, the part before the call of `copyAndAlign`, which does
not involve the alignment: the log of the collaborator calls and, when no check
rejects and both archives open, the two archives handed to the copier pass. -/
def openArchives {σ : Type} (env : Env σ) (inFileName outFileName : String) (force : Bool) :
    List Event × Option (ZipFile × σ) :=
  if inFileName = outFileName then ([], none)
  else
    let log1 := if force then [] else [Event.access outFileName (env.access outFileName)]
    if (!force && decide (env.access outFileName = 0)) = true then (log1, none)
    else
      let zin := env.openRead inFileName [.kOpenReadOnly]
      let log2 := log1 ++ [Event.zipOpen inFileName [.kOpenReadOnly] zin.1]
      if zin.1 ≠ NO_ERROR then (log2, none)
      else
        let flags := [OpenFlag.kOpenReadWrite, OpenFlag.kOpenCreate, OpenFlag.kOpenTruncate]
        let zout := env.openWrite outFileName flags
        let log3 := log2 ++ [Event.zipOpen outFileName flags zout.1]
        if zout.1 ≠ NO_ERROR then (log3, none)
        else (log3, some (zin.2, zout.2))

/-- An in-memory archive library for concrete runs.  `files` gives the entries of the
archive stored at a path, if there is one; a destination archive is the list of
entries added so far, each with its padding, and `add` fails once `capacity`
entries are stored. -/
def memEnv (files : String → Option (List ZipEntry)) (capacity : Nat) :
    Env (List (ZipEntry × Int)) where
  access := fun path => if (files path).isSome then 0 else -1
  openRead := fun path _ =>
    match files path with
    | some es => (NO_ERROR, ZipFile.ofList es)
    | none => (-1, ZipFile.ofList [])
  openWrite := fun _ _ => (NO_ERROR, [])
  add := fun z _ e pad => if z.length < capacity then (NO_ERROR, z ++ [(e, pad)]) else (-1, z)

/-- The entries handed to `add`, in call order, according to a log. -/
def addedEntries : List Event → List ZipEntry
  | [] => []
  | Event.add pEntry _ _ :: rest => pEntry :: addedEntries rest
  | _ :: rest => addedEntries rest

/-! ## Arithmetic of the C remainder -/

theorem cRem_ok (a b : Int) (hb : b ≠ 0) : cRem a b = .ok (a.tmod b) := by
  simp [cRem, hb]

theorem padding_ok (alignment newOffset : Int) (ha : alignment ≠ 0) :
    padding alignment newOffset
      = .ok ((alignment - newOffset.tmod alignment).tmod alignment) := by
  simp [padding, cRem, ha]

theorem tmod_bounds (n a : Int) (ha : 0 < a) : -a < n.tmod a ∧ n.tmod a < a := by
  refine ⟨?_, Int.tmod_lt_of_pos n ha⟩
  obtain ⟨k, rfl⟩ := Int.eq_ofNat_of_zero_le (le_of_lt ha)
  have hk : 0 < k := by exact_mod_cast ha
  cases n with
  | ofNat m =>
    have : 0 ≤ (Int.ofNat m).tmod (k : Int) := Int.tmod_nonneg _ (Int.ofNat_nonneg m)
    omega
  | negSucc m =>
    have h1 : (Int.negSucc m).tmod (k : Int) = -((((m + 1) % k : Nat)) : Int) := rfl
    have h2 : (m + 1) % k < k := Nat.mod_lt _ hk
    rw [h1]
    omega

theorem dvd_sub_tmod (n a : Int) : a ∣ n - n.tmod a := by
  rw [Int.tmod_def]
  exact ⟨n.tdiv a, by ring⟩

theorem tmod_eq_zero_iff_dvd (n a : Int) : n.tmod a = 0 ↔ a ∣ n := by
  constructor
  · intro h
    have := dvd_sub_tmod n a
    rwa [h, sub_zero] at this
  · exact Int.tmod_eq_zero_of_dvd

theorem padValue_bounds (a n : Int) (ha : 0 < a) :
    0 ≤ (a - n.tmod a).tmod a ∧ (a - n.tmod a).tmod a < a := by
  have hb := tmod_bounds n a ha
  exact ⟨Int.tmod_nonneg a (by omega), Int.tmod_lt_of_pos _ ha⟩

theorem padValue_dvd (a n : Int) : a ∣ n + (a - n.tmod a).tmod a := by
  have h1 := dvd_sub_tmod n a
  have h2 := dvd_sub_tmod (a - n.tmod a) a
  have : n + (a - n.tmod a).tmod a
      = (n - n.tmod a) + a - ((a - n.tmod a) - (a - n.tmod a).tmod a) := by ring
  rw [this]
  exact Dvd.dvd.sub (Dvd.dvd.add h1 (dvd_refl a)) h2

theorem padValue_eq_emod (a n : Int) (ha : 0 < a) (hn : 0 ≤ n) :
    (a - n.tmod a).tmod a = (a - n % a) % a := by
  rw [Int.tmod_eq_emod hn (le_of_lt ha)]
  have := Int.emod_lt_of_pos n ha
  rw [Int.tmod_eq_emod (by omega) (le_of_lt ha)]

/-! ## Wrap-around arithmetic -/

theorem wrapInt_eq (x : Int) (h1 : INT_MIN ≤ x) (h2 : x ≤ INT_MAX) : wrapInt x = x := by
  simp only [wrapInt, INT_MIN, INT_MAX] at *
  omega

theorem wrapLong_eq (x : Int) (h1 : LONG_MIN ≤ x) (h2 : x ≤ LONG_MAX) : wrapLong x = x := by
  simp only [wrapLong, LONG_MIN, LONG_MAX] at *
  omega

theorem addInt_exact (a b : Int) (h1 : INT_MIN ≤ a + b) (h2 : a + b ≤ INT_MAX) :
    addInt a b = a + b := by
  unfold addInt
  split
  · exact wrapInt_eq _ h1 h2
  · rfl

theorem addInt_zero (b : Int) : addInt b 0 = b := by
  unfold addInt
  split
  · rename_i h
    rw [add_zero]
    exact wrapInt_eq _ h.1 h.2.1
  · exact add_zero b

theorem addLong_exact (a b : Int) (h1 : LONG_MIN ≤ a + b) (h2 : a + b ≤ LONG_MAX) :
    addLong a b = a + b := by
  unfold addLong
  split
  · exact wrapLong_eq _ h1 h2
  · rfl

theorem addLong_zero (a : Int) : addLong a 0 = a := by
  unfold addLong
  split
  · rename_i h
    rw [add_zero]
    exact wrapLong_eq _ h.1 h.2.1
  · exact add_zero a

theorem toInt_exact (v : Int) (h1 : INT_MIN ≤ v) (h2 : v ≤ INT_MAX) : toInt v = v := by
  unfold toInt
  split
  · exact wrapInt_eq _ h1 h2
  · rfl

theorem toInt_le (v : Int) (h : 0 ≤ v) : toInt v ≤ v := by
  unfold toInt
  split
  · simp only [wrapInt]
    omega
  · exact le_refl v

theorem addInt_toInt_le (b v : Int) (h : 0 ≤ v) : addInt b (toInt v) ≤ b + v := by
  unfold addInt
  split
  · rename_i hr
    unfold toInt at hr ⊢
    split
    · simp only [wrapInt, INT_MIN, INT_MAX] at *
      omega
    · rename_i hv
      rw [if_neg hv] at hr
      simp only [wrapInt, INT_MIN, INT_MAX] at *
      omega
  · have := toInt_le v h
    omega

/-! ## The copy loop -/

section CopyLemmas
variable {σ : Type}

theorem copyBody_none (env : Env σ) (pZin : ZipFile) (alignment : Int) (s : CopyState σ)
    (h : pZin.getEntryByIndex s.i = none) :
    copyBody env pZin alignment s
      = .ok (.ret 1 { s with log := s.log ++ [Event.getEntryByIndex s.i none] }) := by
  simp [copyBody, h]

theorem copyBody_some (env : Env σ) (pZin : ZipFile) (alignment : Int) (s : CopyState σ)
    (e : ZipEntry) (p : Int) (h : pZin.getEntryByIndex s.i = some e)
    (hp : entryPadding alignment s.bias e = .ok p) :
    copyBody env pZin alignment s
      = if (env.add s.zout pZin e p).1 ≠ NO_ERROR then
          .ok (.ret 1 { s with
            zout := (env.add s.zout pZin e p).2,
            log := s.log ++ [Event.getEntryByIndex s.i (some e),
              Event.add e p (env.add s.zout pZin e p).1] })
        else
          .ok (.next {
            i := s.i + 1, bias := addInt s.bias p, zout := (env.add s.zout pZin e p).2,
            log := s.log ++ [Event.getEntryByIndex s.i (some e),
              Event.add e p (env.add s.zout pZin e p).1],
            copied := s.copied ++ [⟨e, p, addInt s.bias p⟩] }) := by
  simp only [copyBody, h, hp]
  split <;> simp

theorem copyBody_fault (env : Env σ) (pZin : ZipFile) (alignment : Int) (s : CopyState σ)
    (e : ZipEntry) (f : Fault) (h : pZin.getEntryByIndex s.i = some e)
    (hp : entryPadding alignment s.bias e = .error f) :
    copyBody env pZin alignment s = .error f := by
  simp only [copyBody, h, hp]

theorem copyLoop_run (env : Env σ) (pZin : ZipFile) (alignment : Int) :
    ∀ (n : Nat) (s : CopyState σ) (ret : Int) (s1 : CopyState σ),
      copyLoop env pZin alignment n s = .ok (ret, s1) →
      ∃ cs, CopiedFrom pZin alignment s.i s.bias cs ∧ s1.copied = s.copied ++ cs ∧
        s1.bias = biasAfter s.bias cs ∧
        ((ret = 0 ∧ cs.length = n ∧ s1.i = s.i + n ∧ s1.log = s.log ++ logOf s.i cs) ∨
         (ret = 1 ∧ cs.length < n ∧ ∃ tail,
            FailTail pZin alignment (s.i + cs.length) s1.bias tail ∧
            s1.log = s.log ++ logOf s.i cs ++ tail)) := by
  intro n
  induction n with
  | zero =>
    intro s ret s1 h
    simp only [copyLoop, Except.ok.injEq, Prod.mk.injEq] at h
    obtain ⟨rfl, rfl⟩ := h
    exact ⟨[], trivial, by simp, rfl, Or.inl ⟨rfl, rfl, by simp, by simp [logOf]⟩⟩
  | succ n ih =>
    intro s ret s1 h
    rw [copyLoop] at h
    cases hget : pZin.getEntryByIndex s.i with
    | none =>
      rw [copyBody_none env pZin alignment s hget] at h
      simp only [Except.ok.injEq, Prod.mk.injEq] at h
      obtain ⟨rfl, rfl⟩ := h
      refine ⟨[], trivial, by simp, rfl, Or.inr ⟨rfl, by simp, _, Or.inl ⟨?_, rfl⟩, by simp [logOf]⟩⟩
      simpa using hget
    | some e =>
      cases hp : entryPadding alignment s.bias e with
      | error f =>
        rw [copyBody_fault env pZin alignment s e f hget hp] at h
        cases h
      | ok p =>
        rw [copyBody_some env pZin alignment s e p hget hp] at h
        by_cases hst : (env.add s.zout pZin e p).1 = NO_ERROR
        · simp only [hst, ne_eq, not_true_eq_false, if_false] at h
          obtain ⟨cs, hcs, hcop, hbias, hrest⟩ := ih _ ret s1 h
          refine ⟨⟨e, p, addInt s.bias p⟩ :: cs, ⟨hget, hp, rfl, hcs⟩, by simpa using hcop,
            hbias, ?_⟩
          rcases hrest with ⟨h0, hlen, hi, hlog⟩ | ⟨h1, hlen, tail, htail, hlog⟩
          · refine Or.inl ⟨h0, by simp [hlen], ?_, ?_⟩
            · rw [hi]; push_cast; ring
            · rw [hlog]; simp [logOf]
          · refine Or.inr ⟨h1, by simp [hlen], tail, ?_, ?_⟩
            · have : s.i + ((⟨e, p, addInt s.bias p⟩ :: cs : List Copied).length : Int)
                  = s.i + 1 + (cs.length : Int) := by
                simp only [List.length_cons]; push_cast; ring
              rw [this]; exact htail
            · rw [hlog]; simp [logOf]
        · simp only [ne_eq, hst, not_false_eq_true, if_true, Except.ok.injEq, Prod.mk.injEq] at h
          obtain ⟨rfl, rfl⟩ := h
          refine ⟨[], trivial, by simp, rfl, Or.inr ⟨rfl, by simp, _, Or.inr ⟨e, p, _, ?_, hp, hst, rfl⟩,
            by simp [logOf]⟩⟩
          simpa using hget

theorem copyLoop_returns (env : Env σ) (pZin : ZipFile) (alignment : Int) (ha : alignment ≠ 0) :
    ∀ (n : Nat) (s : CopyState σ), ∃ ret s1, copyLoop env pZin alignment n s = .ok (ret, s1) := by
  intro n
  induction n with
  | zero => intro s; exact ⟨0, s, rfl⟩
  | succ n ih =>
    intro s
    rw [copyLoop]
    cases hget : pZin.getEntryByIndex s.i with
    | none =>
      rw [copyBody_none env pZin alignment s hget]
      exact ⟨1, _, rfl⟩
    | some e =>
      have hp : ∃ p, entryPadding alignment s.bias e = .ok p := by
        unfold entryPadding
        split
        · exact ⟨0, rfl⟩
        · rw [padding_ok alignment _ ha]
          exact ⟨_, rfl⟩
      obtain ⟨p, hp⟩ := hp
      rw [copyBody_some env pZin alignment s e p hget hp]
      by_cases hst : (env.add s.zout pZin e p).1 = NO_ERROR
      · simp only [hst, ne_eq, not_true_eq_false, if_false]
        exact ih _
      · simp only [ne_eq, hst, not_false_eq_true, if_true]
        exact ⟨1, _, rfl⟩

theorem copyLoop_split (env : Env σ) (pZin : ZipFile) (alignment : Int) (m : Nat) :
    ∀ (n : Nat) (s s1 : CopyState σ), copyLoop env pZin alignment n s = .ok (0, s1) →
      copyLoop env pZin alignment (n + m) s = copyLoop env pZin alignment m s1 := by
  intro n
  induction n with
  | zero =>
    intro s s1 h
    simp only [copyLoop, Except.ok.injEq, Prod.mk.injEq, true_and] at h
    subst h
    simp
  | succ n ih =>
    intro s s1 h
    have hnm : n + 1 + m = (n + m) + 1 := by omega
    rw [hnm, copyLoop]
    rw [copyLoop] at h
    cases hget : pZin.getEntryByIndex s.i with
    | none =>
      rw [copyBody_none env pZin alignment s hget] at h
      simp at h
    | some e =>
      cases hp : entryPadding alignment s.bias e with
      | error f =>
        rw [copyBody_fault env pZin alignment s e f hget hp] at h
        cases h
      | ok p =>
        rw [copyBody_some env pZin alignment s e p hget hp] at h ⊢
        by_cases hst : (env.add s.zout pZin e p).1 = NO_ERROR
        · simp only [hst, ne_eq, not_true_eq_false, if_false] at h ⊢
          exact ih _ _ h
        · simp [hst] at h

theorem CopiedFrom_getEntry (pZin : ZipFile) (alignment : Int) :
    ∀ (cs : List Copied) (i b : Int), CopiedFrom pZin alignment i b cs →
      ∀ (j : Nat) (c : Copied), cs[j]? = some c →
        pZin.getEntryByIndex (i + j) = some c.pEntry := by
  intro cs
  induction cs with
  | nil => intro i b _ j c hj; simp at hj
  | cons c0 cs ih =>
    intro i b h j c hj
    obtain ⟨hget, _, _, hrest⟩ := h
    cases j with
    | zero =>
      simp only [List.getElem?_cons_zero, Option.some.injEq] at hj
      subst hj
      simpa using hget
    | succ j =>
      simp only [List.getElem?_cons_succ] at hj
      have := ih (i + 1) c0.bias hrest j c hj
      rw [← this]
      congr 1
      push_cast
      ring

theorem entryPaddingExact_spec (alignment b : Int) (e : ZipEntry) (p : Int) (ha : 0 < alignment)
    (h : entryPaddingExact alignment b e = .ok p) :
    0 ≤ p ∧ p < alignment ∧ (e.isCompressed = true → p = 0) ∧
      (e.isCompressed = false → alignment ∣ e.fileOffset + (b + p)) ∧
      (e.isCompressed = false → p = (alignment - (e.fileOffset + b).tmod alignment).tmod alignment) := by
  unfold entryPaddingExact at h
  cases hc : e.isCompressed with
  | true =>
    simp only [hc, if_true, Except.ok.injEq] at h
    subst h
    simp [ha]
  | false =>
    simp only [hc, Bool.false_eq_true, if_false] at h
    rw [padding_ok alignment _ (ne_of_gt ha)] at h
    simp only [Except.ok.injEq] at h
    subst h
    have hb := padValue_bounds alignment (e.fileOffset + b) ha
    have hd := padValue_dvd alignment (e.fileOffset + b)
    refine ⟨hb.1, hb.2, by simp, fun _ => ?_, fun _ => rfl⟩
    rw [← add_assoc]
    exact hd

theorem CopiedExact_records (pZin : ZipFile) (alignment : Int) (ha : 0 < alignment) :
    ∀ (cs : List Copied) (i b : Int), CopiedExact pZin alignment i b cs →
      ∀ c ∈ cs, 0 ≤ c.padding ∧ c.padding < alignment ∧
        (c.pEntry.isCompressed = true → c.padding = 0) ∧
        (c.pEntry.isCompressed = false → alignment ∣ c.pEntry.fileOffset + c.bias) := by
  intro cs
  induction cs with
  | nil => intro i b _ c hc; simp at hc
  | cons c0 cs ih =>
    intro i b h c hc
    obtain ⟨_, hp, hb, hrest⟩ := h
    rcases List.mem_cons.mp hc with rfl | hmem
    · have := entryPaddingExact_spec alignment b c.pEntry c.padding ha hp
      refine ⟨this.1, this.2.1, this.2.2.1, ?_⟩
      rw [hb]
      exact this.2.2.2.1
    · exact ih (i + 1) c0.bias hrest c hmem

theorem CopiedExact_bias (pZin : ZipFile) (alignment : Int) :
    ∀ (cs : List Copied) (i b : Int), CopiedExact pZin alignment i b cs →
      biasAfter b cs = b + (cs.map (fun c => c.padding)).sum ∧
      ∀ (k : Nat) (c : Copied), cs[k]? = some c →
        c.bias = b + ((cs.take (k + 1)).map (fun c => c.padding)).sum ∧
        c.bias = biasAfter b (cs.take k) + c.padding := by
  intro cs
  induction cs with
  | nil => intro i b _; simp [biasAfter]
  | cons c0 cs ih =>
    intro i b h
    obtain ⟨_, _, hb, hrest⟩ := h
    obtain ⟨h1, h2⟩ := ih (i + 1) c0.bias hrest
    refine ⟨?_, ?_⟩
    · simp only [biasAfter, List.map_cons, List.sum_cons]
      rw [h1, hb]; ring
    · intro k c hk
      cases k with
      | zero =>
        simp only [List.getElem?_cons_zero, Option.some.injEq] at hk
        subst hk
        simp [hb, biasAfter]
      | succ k =>
        simp only [List.getElem?_cons_succ] at hk
        obtain ⟨h3, h4⟩ := h2 k c hk
        refine ⟨?_, ?_⟩
        · rw [h3, hb]; simp only [List.take_succ_cons, List.map_cons, List.sum_cons]; ring
        · rw [h4]; simp [biasAfter]

theorem entryPadding_compressed (alignment b : Int) (e : ZipEntry)
    (hc : e.isCompressed = true) : entryPadding alignment b e = .ok 0 := by
  simp [entryPadding, hc]

theorem entryPadding_stored (alignment b : Int) (e : ZipEntry) (ha : alignment ≠ 0)
    (hc : e.isCompressed = false) :
    entryPadding alignment b e
      = .ok (toInt ((alignment - (addLong e.fileOffset b).tmod alignment).tmod alignment)) := by
  simp [entryPadding, hc, padding_ok _ _ ha]

theorem entryPadding_eq_exact (alignment b : Int) (e : ZipEntry) (ha : 0 < alignment)
    (hfit : e.isCompressed = false → alignment - 1 ≤ INT_MAX)
    (h1 : LONG_MIN ≤ e.fileOffset + b) (h2 : e.fileOffset + b ≤ LONG_MAX) :
    entryPadding alignment b e = entryPaddingExact alignment b e := by
  cases hc : e.isCompressed with
  | true => simp [entryPadding, entryPaddingExact, hc]
  | false =>
    rw [entryPadding_stored alignment b e (ne_of_gt ha) hc, addLong_exact _ _ h1 h2]
    have hb := padValue_bounds alignment (e.fileOffset + b) ha
    have hf := hfit hc
    rw [toInt_exact _ (by simp only [INT_MIN]; omega) (by omega)]
    simp [entryPaddingExact, hc, padding_ok _ _ (ne_of_gt ha)]

theorem entryPadding_le (alignment b : Int) (e : ZipEntry) (p : Int) (ha : 0 < alignment)
    (h : entryPadding alignment b e = .ok p) :
    p ≤ (if e.isCompressed then 0 else alignment - 1) ∧
    addInt b p ≤ b + (if e.isCompressed then 0 else alignment - 1) ∧
    (e.isCompressed = true → p = 0) := by
  cases hc : e.isCompressed with
  | true =>
    rw [entryPadding_compressed alignment b e hc] at h
    simp only [Except.ok.injEq] at h
    subst h
    simp [addInt_zero]
  | false =>
    rw [entryPadding_stored alignment b e (ne_of_gt ha) hc] at h
    simp only [Except.ok.injEq] at h
    subst h
    have hb := padValue_bounds alignment (addLong e.fileOffset b) ha
    have h1 := toInt_le _ hb.1
    have h2 := addInt_toInt_le b _ hb.1
    simp only [Bool.false_eq_true, if_false]
    refine ⟨by omega, by omega, fun h => by cases h⟩

theorem entryPadding_nonneg (alignment b : Int) (e : ZipEntry) (p : Int) (ha : 0 < alignment)
    (hmax : alignment ≤ INT_MAX) (h : entryPadding alignment b e = .ok p) : 0 ≤ p := by
  cases hc : e.isCompressed with
  | true =>
    rw [entryPadding_compressed alignment b e hc] at h
    simp only [Except.ok.injEq] at h
    omega
  | false =>
    rw [entryPadding_stored alignment b e (ne_of_gt ha) hc] at h
    simp only [Except.ok.injEq] at h
    have hb := padValue_bounds alignment (addLong e.fileOffset b) ha
    rw [toInt_exact _ (by simp only [INT_MIN]; omega) (by omega)] at h
    omega

theorem CopiedFrom_padding_nonneg (pZin : ZipFile) (alignment : Int) (ha : 0 < alignment)
    (hmax : alignment ≤ INT_MAX) :
    ∀ (cs : List Copied) (i b : Int), CopiedFrom pZin alignment i b cs →
      0 ≤ (cs.map (fun c => c.padding)).sum := by
  intro cs
  induction cs with
  | nil => intro i b _; simp
  | cons c cs ih =>
    intro i b h
    obtain ⟨_, hp, _, hrest⟩ := h
    have h0 := entryPadding_nonneg alignment b c.pEntry c.padding ha hmax hp
    have h1 := ih _ _ hrest
    simp only [List.map_cons, List.sum_cons]
    omega

theorem CopiedFrom_exact (pZin : ZipFile) (alignment : Int) (ha : 0 < alignment)
    (hmax : alignment ≤ INT_MAX) :
    ∀ (cs : List Copied) (i b : Int), 0 ≤ b →
      b + (cs.map (fun c => c.padding)).sum ≤ INT_MAX →
      (∀ c ∈ cs, 0 ≤ c.pEntry.fileOffset ∧
        (c.pEntry.isCompressed = false →
          c.pEntry.fileOffset + (c.bias - c.padding) ≤ LONG_MAX)) →
      CopiedFrom pZin alignment i b cs → CopiedExact pZin alignment i b cs := by
  intro cs
  induction cs with
  | nil => intro i b _ _ _ _; trivial
  | cons c cs ih =>
    intro i b hb0 hfit hoff h
    obtain ⟨hget, hp, hbias, hrest⟩ := h
    have ho := hoff c (List.mem_cons_self _ _)
    have hp0 := entryPadding_nonneg alignment b c.pEntry c.padding ha hmax hp
    have hrest0 := CopiedFrom_padding_nonneg pZin alignment ha hmax cs _ _ hrest
    simp only [List.map_cons, List.sum_cons] at hfit
    have hbe : c.bias = b + c.padding := by
      rw [hbias]
      exact addInt_exact _ _ (by simp only [INT_MIN]; omega) (by omega)
    have hexact : entryPadding alignment b c.pEntry = entryPaddingExact alignment b c.pEntry := by
      cases hc : c.pEntry.isCompressed with
      | true => simp [entryPadding, entryPaddingExact, hc]
      | false =>
        apply entryPadding_eq_exact alignment b c.pEntry ha
        · intro _
          omega
        · simp only [LONG_MIN]; omega
        · have := ho.2 hc
          rw [hbe] at this
          omega
    rw [hexact] at hp
    refine ⟨hget, hp, hbe, ih (i + 1) c.bias (by omega) (by omega)
      (fun c1 h1 => hoff c1 (List.mem_cons_of_mem _ h1)) hrest⟩

/-- In a pass with a positive `int` alignment that starts from an `int` bias, every
padding and every bias is an `int` value: the sums and the conversion of that pass
are the wrapping ones. -/
theorem CopiedFrom_range (pZin : ZipFile) (alignment : Int) (ha : 0 < alignment)
    (hmax : alignment ≤ INT_MAX) :
    ∀ (cs : List Copied) (i b : Int), INT_MIN ≤ b → b ≤ INT_MAX →
      CopiedFrom pZin alignment i b cs →
      ∀ c ∈ cs, (INT_MIN ≤ c.padding ∧ c.padding ≤ INT_MAX) ∧
        (INT_MIN ≤ c.bias ∧ c.bias ≤ INT_MAX) := by
  intro cs
  induction cs with
  | nil => intro i b _ _ _ c hc; simp at hc
  | cons c0 cs ih =>
    intro i b hb1 hb2 h c hc
    obtain ⟨_, hp, hbias, hrest⟩ := h
    have hp0 := entryPadding_nonneg alignment b c0.pEntry c0.padding ha hmax hp
    have hp1 := (entryPadding_le alignment b c0.pEntry c0.padding ha hp).1
    have hpr : INT_MIN ≤ c0.padding ∧ c0.padding ≤ INT_MAX := by
      constructor
      · simp only [INT_MIN]; omega
      · cases hcomp : c0.pEntry.isCompressed with
        | true => simp only [hcomp, if_true] at hp1; simp only [INT_MAX]; omega
        | false => simp only [hcomp, Bool.false_eq_true, if_false] at hp1; omega
    have hbr : INT_MIN ≤ c0.bias ∧ c0.bias ≤ INT_MAX := by
      rw [hbias, addInt, if_pos ⟨hb1, hb2, hpr.1, hpr.2⟩]
      simp only [wrapInt, INT_MIN, INT_MAX]
      omega
    rcases List.mem_cons.mp hc with rfl | hmem
    · exact ⟨hpr, hbr⟩
    · exact ih _ _ hbr.1 hbr.2 hrest c hmem

end CopyLemmas

/-! ## The verification loop -/

theorem ofList_getEntryByIndex (es : List ZipEntry) (j : Nat) :
    (ZipFile.ofList es).getEntryByIndex (j : Int) = es[j]? := by
  simp [ZipFile.ofList]

theorem ofList_numEntries (es : List ZipEntry) :
    (ZipFile.ofList es).numEntries.toNat = es.length := by
  simp [ZipFile.ofList]

theorem verifyLoop_list (zipFile : ZipFile) (alignment : Int) (verbose : Bool)
    (ha : alignment ≠ 0) :
    ∀ (l : List ZipEntry) (s : VerifyState),
      (∀ (j : Nat) (e : ZipEntry), l[j]? = some e →
        zipFile.getEntryByIndex (s.i + j) = some e) →
      verifyLoop zipFile alignment verbose l.length s
        = .ok { i := s.i + l.length,
                foundBad := s.foundBad || l.any (misaligned alignment),
                out := s.out ++ (if verbose then l.map (reportLine alignment) else []) } := by
  intro l
  induction l with
  | nil => intro s _; simp [verifyLoop]
  | cons e l ih =>
    intro s h
    have h0 : zipFile.getEntryByIndex s.i = some e := by
      simpa using h 0 e (by simp)
    have hrest : ∀ (s1 : VerifyState), s1.i = s.i + 1 →
        ∀ (j : Nat) (e1 : ZipEntry), l[j]? = some e1 →
          zipFile.getEntryByIndex (s1.i + j) = some e1 := by
      intro s1 hi j e1 hj
      have := h (j + 1) e1 (by simpa using hj)
      rw [← this, hi]
      congr 1
      push_cast
      ring
    simp only [List.length_cons, verifyLoop, verifyBody, h0]
    cases hc : e.isCompressed with
    | true =>
      simp only [if_true]
      rw [ih _ (hrest _ rfl)]
      cases verbose <;> simp [misaligned, reportLine, hc] <;> omega
    | false =>
      simp only [Bool.false_eq_true, if_false, cRem_ok _ _ ha]
      by_cases hr : e.fileOffset.tmod alignment = 0
      · simp only [hr, ne_eq, not_true_eq_false, if_false]
        rw [ih _ (hrest _ rfl)]
        cases verbose <;> simp [misaligned, reportLine, hc, hr] <;> omega
      · simp only [ne_eq, hr, not_false_eq_true, if_true]
        rw [ih _ (hrest _ rfl)]
        cases verbose <;> simp [misaligned, reportLine, hc, hr] <;> omega

theorem verify_ofList {σ : Type} (env : Env σ) (fileName : String) (alignment : Int)
    (verbose : Bool) (es : List ZipEntry) (ha : alignment ≠ 0)
    (hopen : env.openRead fileName [.kOpenReadOnly] = (NO_ERROR, ZipFile.ofList es)) :
    verify env fileName alignment verbose
      = .ok (if es.any (misaligned alignment) then 1 else 0,
             if verbose then
               Line.verifying fileName alignment :: es.map (reportLine alignment)
                 ++ [Line.verification (es.any (misaligned alignment))]
             else []) := by
  have hl := verifyLoop_list (ZipFile.ofList es) alignment verbose ha es
    { i := 0, foundBad := false,
      out := if verbose then [Line.verifying fileName alignment] else [] }
    (by intro j e hj; simpa [ofList_getEntryByIndex] using hj)
  simp only [verify, hopen, ne_eq, not_true_eq_false, if_false, ofList_numEntries, hl]
  cases verbose <;> simp

theorem any_misaligned_iff (alignment : Int) (es : List ZipEntry) :
    es.any (misaligned alignment) = false ↔
      ∀ e ∈ es, e.isCompressed = false → alignment ∣ e.fileOffset := by
  simp only [List.any_eq_false, misaligned, Bool.and_eq_true, Bool.not_eq_true',
    decide_eq_true_eq, not_and, not_not, tmod_eq_zero_iff_dvd, ne_eq]

theorem verifyLoop_zero_list (zipFile : ZipFile) (verbose : Bool) :
    ∀ (l : List ZipEntry) (s : VerifyState),
      (∀ (j : Nat) (e : ZipEntry), l[j]? = some e →
        zipFile.getEntryByIndex (s.i + j) = some e) →
      (verifyLoop zipFile 0 verbose l.length s = .error Fault.divisionByZero ↔
        ∃ e ∈ l, e.isCompressed = false) := by
  intro l
  induction l with
  | nil => intro s _; simp [verifyLoop]
  | cons e l ih =>
    intro s h
    have h0 : zipFile.getEntryByIndex s.i = some e := by
      simpa using h 0 e (by simp)
    have hrest : ∀ (s1 : VerifyState), s1.i = s.i + 1 →
        ∀ (j : Nat) (e1 : ZipEntry), l[j]? = some e1 →
          zipFile.getEntryByIndex (s1.i + j) = some e1 := by
      intro s1 hi j e1 hj
      have := h (j + 1) e1 (by simpa using hj)
      rw [← this, hi]
      congr 1
      push_cast
      ring
    simp only [List.length_cons, verifyLoop, verifyBody, h0]
    cases hc : e.isCompressed with
    | true =>
      simp only [if_true]
      rw [ih _ (hrest _ rfl)]
      simp [hc]
    | false =>
      simp [cRem, hc]

theorem copiedFrom_ofList (alignment : Int) (es : List ZipEntry) (cs : List Copied) (b : Int)
    (h : CopiedFrom (ZipFile.ofList es) alignment 0 b cs) (hlen : cs.length = es.length) :
    cs.map (fun c => c.pEntry) = es := by
  apply List.ext_getElem?
  intro j
  by_cases hj : j < cs.length
  · obtain ⟨c, hc⟩ : ∃ c, cs[j]? = some c := ⟨cs[j], List.getElem?_eq_getElem hj⟩
    have := CopiedFrom_getEntry (ZipFile.ofList es) alignment cs 0 b h j c hc
    rw [zero_add, ofList_getEntryByIndex] at this
    rw [List.getElem?_map, hc, this]
    rfl
  · have h1 : cs.length ≤ j := Nat.le_of_not_lt hj
    rw [List.getElem?_eq_none (by simpa using h1), List.getElem?_eq_none (by omega)]

theorem copiedFrom_ofList_take (alignment : Int) (es : List ZipEntry) (cs : List Copied)
    (b : Int) (h : CopiedFrom (ZipFile.ofList es) alignment 0 b cs) :
    cs.map (fun c => c.pEntry) = es.take cs.length := by
  apply List.ext_getElem?
  intro j
  by_cases hj : j < cs.length
  · obtain ⟨c, hc⟩ : ∃ c, cs[j]? = some c := ⟨cs[j], List.getElem?_eq_getElem hj⟩
    have := CopiedFrom_getEntry (ZipFile.ofList es) alignment cs 0 b h j c hc
    rw [zero_add, ofList_getEntryByIndex] at this
    rw [List.getElem?_map, hc, List.getElem?_take_of_lt hj, this]
    rfl
  · have h1 : cs.length ≤ j := Nat.le_of_not_lt hj
    rw [List.getElem?_eq_none (by simpa using h1), List.getElem?_take_eq_none h1]

theorem copiedFrom_ofList_exact (alignment : Int) (es : List ZipEntry) (cs : List Copied)
    (ha : 0 < alignment) (hoff : ∀ e ∈ es, 0 ≤ e.fileOffset) (hfit : NoOverflow alignment cs)
    (h : CopiedFrom (ZipFile.ofList es) alignment 0 0 cs) :
    CopiedExact (ZipFile.ofList es) alignment 0 0 cs := by
  have htake := copiedFrom_ofList_take alignment es cs 0 h
  have hmem : ∀ c ∈ cs, c.pEntry ∈ es := by
    intro c hc
    have : c.pEntry ∈ cs.map (fun c => c.pEntry) := List.mem_map.mpr ⟨c, hc, rfl⟩
    rw [htake] at this
    exact List.mem_of_mem_take this
  obtain ⟨hmax, hsum, hlong⟩ := hfit
  apply CopiedFrom_exact _ alignment ha hmax cs 0 0 (le_refl 0) _ _ h
  · omega
  · intro c hc
    exact ⟨hoff _ (hmem c hc), hlong c hc⟩

theorem copyAndAlign_success {σ : Type} (env : Env σ) (pZin : ZipFile) (pZout : σ)
    (alignment : Int) (s : CopyState σ)
    (hrun : copyAndAlign env pZin pZout alignment = .ok (0, s)) :
    CopiedFrom pZin alignment 0 0 s.copied ∧ s.copied.length = pZin.numEntries.toNat ∧
      s.bias = biasAfter 0 s.copied ∧ s.log = logOf 0 s.copied := by
  obtain ⟨cs, hcs, hcop, hbias, hrest⟩ := copyLoop_run env pZin alignment _ _ _ _ hrun
  simp only [copyInit, List.nil_append] at hcs hcop hbias hrest
  rcases hrest with ⟨_, hlen, _, hlog⟩ | ⟨h1, _⟩
  · rw [hcop]; exact ⟨hcs, hlen, hbias, hlog⟩
  · exact absurd h1 (by decide)

theorem destination_aligned (pZin : ZipFile) (alignment : Int) (ha : 0 < alignment)
    (cs : List Copied) (i b : Int) (h : CopiedExact pZin alignment i b cs) :
    ∀ d ∈ destination cs, d.isCompressed = false → alignment ∣ d.fileOffset := by
  intro d hd hc
  simp only [destination, List.mem_map] at hd
  obtain ⟨c, hmem, rfl⟩ := hd
  exact (CopiedExact_records pZin alignment ha cs i b h c hmem).2.2.2 hc

theorem verify_aligned {τ : Type} (env2 : Env τ) (fileName : String) (alignment : Int)
    (verbose : Bool) (ds : List ZipEntry) (ha : alignment ≠ 0)
    (hal : ∀ d ∈ ds, d.isCompressed = false → alignment ∣ d.fileOffset)
    (hopen : env2.openRead fileName [.kOpenReadOnly] = (NO_ERROR, ZipFile.ofList ds)) :
    ∃ out, verify env2 fileName alignment verbose = .ok (0, out) := by
  rw [verify_ofList env2 fileName alignment verbose _ ha hopen,
    (any_misaligned_iff alignment _).mpr hal]
  exact ⟨_, rfl⟩

/-- Counterexample for C1: with alignment 1000000000 the stored entries at offsets 1,
2, 3 and 4 (non-negative, every copy succeeding) get paddings 999999999 three times
and then 294967295: the `int` bias wraps around to -1294967299 after the third
entry.  The third entry's offset plus bias is -1294967296, not a multiple of the
alignment, so `verify` on the destination entries returns 1; and the fourth entry,
which has 3294967292 padding bytes in front of it that the source has not, lies at
3294967296, not a multiple of the alignment either. -/
theorem align_then_verify_counterexample :
    (0 : Int) < 1000000000 ∧
    (∀ e ∈ [(⟨"a", false, 1⟩ : ZipEntry), ⟨"b", false, 2⟩, ⟨"c", false, 3⟩, ⟨"d", false, 4⟩],
      0 ≤ e.fileOffset) ∧
    ∃ s, copyAndAlign (memEnv (fun _ => none) 4)
        (ZipFile.ofList [⟨"a", false, 1⟩, ⟨"b", false, 2⟩, ⟨"c", false, 3⟩, ⟨"d", false, 4⟩])
        [] 1000000000 = .ok (0, s) ∧
      s.copied.map (fun c => c.padding) = [999999999, 999999999, 999999999, 294967295] ∧
      s.copied.map (fun c => c.bias) = [999999999, 1999999998, -1294967299, -1000000004] ∧
      (destination s.copied).map (fun e => e.fileOffset)
        = [1000000000, 2000000000, -1294967296, -1000000000] ∧
      verify (memEnv (fun _ => some (destination s.copied)) 0) "out.zip" 1000000000 false
        = .ok (1, []) ∧
      (4 + (999999999 + 999999999 + 999999999 + 294967295) : Int) % 1000000000 ≠ 0 :=
  ⟨by decide, by decide,
   { i := 4, bias := -1000000004,
     zout := [(⟨"a", false, 1⟩, 999999999), (⟨"b", false, 2⟩, 999999999),
       (⟨"c", false, 3⟩, 999999999), (⟨"d", false, 4⟩, 294967295)],
     log := logOf 0 [⟨⟨"a", false, 1⟩, 999999999, 999999999⟩,
       ⟨⟨"b", false, 2⟩, 999999999, 1999999998⟩, ⟨⟨"c", false, 3⟩, 999999999, -1294967299⟩,
       ⟨⟨"d", false, 4⟩, 294967295, -1000000004⟩],
     copied := [⟨⟨"a", false, 1⟩, 999999999, 999999999⟩,
       ⟨⟨"b", false, 2⟩, 999999999, 1999999998⟩, ⟨⟨"c", false, 3⟩, 999999999, -1294967299⟩,
       ⟨⟨"d", false, 4⟩, 294967295, -1000000004⟩] },
   rfl, rfl, rfl, rfl, rfl, by decide⟩

/-- C1 (align-then-verify, amended): for a positive alignment and a source entry list
with non-negative offsets, when the copier pass succeeds without wrap-around
(`NoOverflow`: the alignment is an `int`, the paddings sum to at most `INT_MAX`, and
the projected offset of every non-compressed entry is at most `LONG_MAX`) and every
entry lies in the destination at its source offset plus the bias accumulated after
it was processed, the copied entries are the source entries in order, every
non-compressed destination offset is a multiple of the alignment, and `verify` on
the destination returns 0 (fully aligned). -/
theorem align_then_verify {σ τ : Type} (env : Env σ) (es : List ZipEntry) (pZout : σ)
    (alignment : Int) (s : CopyState σ) (env2 : Env τ) (fileName : String) (verbose : Bool)
    (ha : 0 < alignment) (hoff : ∀ e ∈ es, 0 ≤ e.fileOffset)
    (hfit : NoOverflow alignment s.copied)
    (hrun : copyAndAlign env (ZipFile.ofList es) pZout alignment = .ok (0, s))
    (hopen : env2.openRead fileName [.kOpenReadOnly]
      = (NO_ERROR, ZipFile.ofList (destination s.copied))) :
    s.copied.map (fun c => c.pEntry) = es ∧
    (∀ d ∈ destination s.copied, d.isCompressed = false → d.fileOffset % alignment = 0) ∧
    ∃ out, verify env2 fileName alignment verbose = .ok (0, out) := by
  obtain ⟨hcs, hlen, _, _⟩ := copyAndAlign_success env _ pZout alignment s hrun
  rw [ofList_numEntries] at hlen
  have hex := copiedFrom_ofList_exact alignment es s.copied ha hoff hfit hcs
  have hal := destination_aligned _ alignment ha s.copied 0 0 hex
  refine ⟨copiedFrom_ofList alignment es s.copied 0 hcs hlen, ?_, ?_⟩
  · intro d hd hc
    exact Int.emod_eq_zero_of_dvd (hal d hd hc)
  · exact verify_aligned env2 fileName alignment verbose _ (ne_of_gt ha) hal hopen

/-- Witness for C1: three stored entries at offsets 0, 7 and 15 copied with
alignment 4 land at 0, 8 and 16, and the verifier accepts the destination. -/
theorem align_then_verify_witness :
    destination [⟨⟨"a", false, 0⟩, 0, 0⟩, ⟨⟨"b", false, 7⟩, 1, 1⟩, ⟨⟨"c", false, 15⟩, 0, 1⟩]
      = [⟨"a", false, 0⟩, ⟨"b", false, 8⟩, ⟨"c", false, 16⟩] ∧
    ∃ out, verify
      (memEnv (fun _ => some [⟨"a", false, 0⟩, ⟨"b", false, 8⟩, ⟨"c", false, 16⟩]) 3)
      "out.zip" 4 false = .ok (0, out) :=
  ⟨rfl, (align_then_verify (memEnv (fun _ => none) 3)
    [⟨"a", false, 0⟩, ⟨"b", false, 7⟩, ⟨"c", false, 15⟩] [] 4
    { i := 3, bias := 1,
      zout := [(⟨"a", false, 0⟩, 0), (⟨"b", false, 7⟩, 1), (⟨"c", false, 15⟩, 0)],
      log := logOf 0 [⟨⟨"a", false, 0⟩, 0, 0⟩, ⟨⟨"b", false, 7⟩, 1, 1⟩, ⟨⟨"c", false, 15⟩, 0, 1⟩],
      copied := [⟨⟨"a", false, 0⟩, 0, 0⟩, ⟨⟨"b", false, 7⟩, 1, 1⟩, ⟨⟨"c", false, 15⟩, 0, 1⟩] }
    (memEnv (fun _ => some [⟨"a", false, 0⟩, ⟨"b", false, 8⟩, ⟨"c", false, 16⟩]) 3)
    "out.zip" false (by decide) (by decide) ⟨by decide, by decide, by decide⟩ rfl rfl).2.2⟩

/-- C2 (padding formula): for a non-negative projected offset and a positive
alignment, the padding of lines 59-60 is `(alignment - offset mod alignment) mod
alignment`; it lies in `[0, alignment)`, `offset + padding` is a multiple of the
alignment, and it is the padding the loop body hands to `add` for a non-compressed
entry whose projected offset, the `long` sum `fileOffset + bias` of line 59, is
`offset`, the alignment being an `int`. -/
theorem padding_formula (offset alignment : Int) (hoff : 0 ≤ offset) (ha : 0 < alignment) :
    padding alignment offset = .ok ((alignment - offset % alignment) % alignment) ∧
    0 ≤ (alignment - offset % alignment) % alignment ∧
    (alignment - offset % alignment) % alignment < alignment ∧
    (offset + (alignment - offset % alignment) % alignment) % alignment = 0 ∧
    ∀ {σ : Type} (env : Env σ) (pZin : ZipFile) (s : CopyState σ) (e : ZipEntry),
      pZin.getEntryByIndex s.i = some e → e.isCompressed = false →
      addLong e.fileOffset s.bias = offset → alignment ≤ INT_MAX →
      ∃ step, copyBody env pZin alignment s = .ok step ∧
        step.state.log = s.log ++ [Event.getEntryByIndex s.i (some e),
          Event.add e ((alignment - offset % alignment) % alignment)
            (env.add s.zout pZin e ((alignment - offset % alignment) % alignment)).1] := by
  have heq := padValue_eq_emod alignment offset ha hoff
  have hb := padValue_bounds alignment offset ha
  have hd := padValue_dvd alignment offset
  have hpad := padding_ok alignment offset (ne_of_gt ha)
  rw [heq] at hb hd hpad
  refine ⟨hpad, hb.1, hb.2, Int.emod_eq_zero_of_dvd hd, ?_⟩
  intro σ env pZin s e hget hc hproj hint
  have hp : entryPadding alignment s.bias e
      = .ok ((alignment - offset % alignment) % alignment) := by
    rw [entryPadding_stored alignment s.bias e (ne_of_gt ha) hc, hproj, heq,
      toInt_exact _ (by simp only [INT_MIN]; omega) (by omega)]
  rw [copyBody_some env pZin alignment s e _ hget hp]
  split
  · exact ⟨_, rfl, rfl⟩
  · exact ⟨_, rfl, rfl⟩

/-- Witness for C2 (scenario 1): offset 10 with alignment 4 gives padding 2, and the
entry lands at offset 12. -/
theorem padding_formula_witness :
    padding 4 10 = .ok 2 ∧ (10 + 2 : Int) = 12 ∧ (12 : Int) % 4 = 0 :=
  ⟨(padding_formula 10 4 (by decide) (by decide)).1, by decide, by decide⟩

/-- C3 (verifier result): for a positive alignment and an archive that opens with
entry list `es`, `verify` returns 0 or 1, and it returns 0 (fully aligned) if and
only if every non-compressed entry has `fileOffset mod alignment = 0`; in
particular an archive of compressed entries only is reported aligned whatever
the offsets. -/
theorem verify_result {σ : Type} (env : Env σ) (fileName : String) (alignment : Int)
    (verbose : Bool) (es : List ZipEntry) (ha : 0 < alignment)
    (hopen : env.openRead fileName [.kOpenReadOnly] = (NO_ERROR, ZipFile.ofList es)) :
    ∃ ret out, verify env fileName alignment verbose = .ok (ret, out) ∧
      (ret = 0 ∨ ret = 1) ∧
      (ret = 0 ↔ ∀ e ∈ es, e.isCompressed = false → e.fileOffset % alignment = 0) ∧
      ((∀ e ∈ es, e.isCompressed = true) → ret = 0) := by
  have hv := verify_ofList env fileName alignment verbose es (ne_of_gt ha) hopen
  have hiff : es.any (misaligned alignment) = false ↔
      ∀ e ∈ es, e.isCompressed = false → e.fileOffset % alignment = 0 := by
    rw [any_misaligned_iff]
    constructor
    · intro h e he hc
      exact Int.emod_eq_zero_of_dvd (h e he hc)
    · intro h e he hc
      exact Int.dvd_of_emod_eq_zero (h e he hc)
  refine ⟨_, _, hv, ?_, ?_, ?_⟩
  · split <;> simp
  · rw [← hiff]
    cases es.any (misaligned alignment) <;> simp
  · intro hall
    have : es.any (misaligned alignment) = false := by
      rw [hiff]
      intro e he hc
      rw [hall e he] at hc
      cases hc
    simp [this]

/-- Witness for C3 (scenario 6): one stored entry at offset 5 checked with alignment 4
is reported not aligned, and the verbose report shows remainder 1. -/
theorem verify_result_witness :
    (∃ ret out, verify (memEnv (fun _ => some [⟨"a", false, 5⟩]) 0) "in.zip" 4 true
        = .ok (ret, out) ∧ (ret = 0 ∨ ret = 1) ∧
      (ret = 0 ↔ ∀ e ∈ [(⟨"a", false, 5⟩ : ZipEntry)],
        e.isCompressed = false → e.fileOffset % 4 = 0) ∧
      ((∀ e ∈ [(⟨"a", false, 5⟩ : ZipEntry)], e.isCompressed = true) → ret = 0)) ∧
    verify (memEnv (fun _ => some [⟨"a", false, 5⟩]) 0) "in.zip" 4 true
      = .ok (1, [Line.verifying "in.zip" 4, Line.bad 5 "a" 1, Line.verification true]) :=
  ⟨verify_result (memEnv (fun _ => some [⟨"a", false, 5⟩]) 0) "in.zip" 4 true
    [⟨"a", false, 5⟩] (by decide) rfl, rfl⟩

/-! ## The entry points -/

theorem entryPadding_fault (alignment b : Int) (e : ZipEntry) (f : Fault)
    (h : entryPadding alignment b e = .error f) :
    alignment = 0 ∧ e.isCompressed = false ∧ f = Fault.divisionByZero := by
  unfold entryPadding at h
  cases hc : e.isCompressed with
  | true => simp [hc] at h
  | false =>
    simp only [hc, Bool.false_eq_true, if_false] at h
    by_cases ha : alignment = 0
    · subst ha
      simp only [padding, cRem, if_true, Except.error.injEq] at h
      exact ⟨rfl, rfl, h.symm⟩
    · rw [padding_ok alignment _ ha] at h
      cases h

theorem copyLoop_fault {σ : Type} (env : Env σ) (pZin : ZipFile) (alignment : Int) (f : Fault) :
    ∀ (n : Nat) (s : CopyState σ), copyLoop env pZin alignment n s = .error f →
      ∃ (k : Nat) (sk : CopyState σ) (e : ZipEntry), k < n ∧
        copyLoop env pZin alignment k s = .ok (0, sk) ∧
        pZin.getEntryByIndex sk.i = some e ∧ entryPadding alignment sk.bias e = .error f := by
  intro n
  induction n with
  | zero => intro s h; simp [copyLoop] at h
  | succ n ih =>
    intro s h
    rw [copyLoop] at h
    cases hget : pZin.getEntryByIndex s.i with
    | none =>
      rw [copyBody_none env pZin _ s hget] at h
      cases h
    | some e =>
      cases hp : entryPadding alignment s.bias e with
      | error f1 =>
        rw [copyBody_fault env pZin alignment s e f1 hget hp] at h
        simp only [Except.error.injEq] at h
        subst h
        exact ⟨0, s, e, Nat.succ_pos n, rfl, hget, hp⟩
      | ok p =>
        have hbody := copyBody_some env pZin alignment s e p hget hp
        rw [hbody] at h
        by_cases hst : (env.add s.zout pZin e p).1 = NO_ERROR
        · simp only [hst, ne_eq, not_true_eq_false, if_false] at h hbody
          obtain ⟨k, sk, e1, hk, hrun, hg, hf⟩ := ih _ h
          refine ⟨k + 1, sk, e1, Nat.succ_lt_succ hk, ?_, hg, hf⟩
          rw [copyLoop, hbody]
          exact hrun
        · simp only [ne_eq, hst, not_false_eq_true, if_true] at h
          cases h

theorem copyLoop_zero_iff {σ : Type} (env : Env σ) (pZin : ZipFile) (alignment : Int) :
    ∀ (n : Nat) (s : CopyState σ),
      (∃ s1, copyLoop env pZin alignment n s = .ok (0, s1)) ↔
        CopiesAll env pZin alignment n s.i s.bias s.zout := by
  intro n
  induction n with
  | zero => intro s; simp [copyLoop, CopiesAll]
  | succ n ih =>
    intro s
    simp only [copyLoop, CopiesAll]
    cases hget : pZin.getEntryByIndex s.i with
    | none =>
      rw [copyBody_none env pZin alignment s hget]
      simp
    | some e =>
      cases hp : entryPadding alignment s.bias e with
      | error f =>
        rw [copyBody_fault env pZin alignment s e f hget hp]
        simp [hp]
      | ok p =>
        rw [copyBody_some env pZin alignment s e p hget hp]
        by_cases hst : (env.add s.zout pZin e p).1 = NO_ERROR
        · simp only [hst, ne_eq, not_true_eq_false, if_false]
          rw [ih]
          constructor
          · intro h
            exact ⟨e, p, rfl, hp, hst, h⟩
          · rintro ⟨e1, p1, he, hp1, _, h⟩
            cases he
            rw [hp] at hp1
            cases hp1
            exact h
        · simp only [ne_eq, hst, not_false_eq_true, if_true]
          constructor
          · rintro ⟨s1, h⟩
            simp at h
          · rintro ⟨e1, p1, he, hp1, hst1, _⟩
            cases he
            rw [hp] at hp1
            cases hp1
            exact absurd hst1 hst

theorem process_openArchives {σ : Type} (env : Env σ) (inName outName : String)
    (alignment : Int) (force : Bool) :
    process env inName outName alignment force
      = match openArchives env inName outName force with
        | (log, none) => .ok (1, log)
        | (log, some (zin, zout)) =>
          match copyAndAlign env zin zout alignment with
          | .error f => .error f
          | .ok (result, s) => .ok (result, log ++ s.log) := by
  unfold process openArchives
  by_cases h1 : inName = outName
  · simp only [h1, if_true]
  · by_cases h2 : (!force && decide (env.access outName = 0)) = true
    · simp only [h1, if_false, h2, if_true]
    · by_cases h3 : (env.openRead inName [.kOpenReadOnly]).1 = NO_ERROR
      · by_cases h4 : (env.openWrite outName
            [.kOpenReadWrite, .kOpenCreate, .kOpenTruncate]).1 = NO_ERROR
        · simp only [h1, if_false, h2, h3, h4, ne_eq, not_true_eq_false, Bool.false_eq_true]
        · simp only [h1, if_false, h2, h3, h4, ne_eq, not_true_eq_false, not_false_eq_true,
            if_true, Bool.false_eq_true]
      · simp only [h1, if_false, h2, h3, ne_eq, not_false_eq_true, if_true,
          Bool.false_eq_true]

theorem zipalign_fault {σ : Type} (env : Env σ) (in_filename out_filename : Option String)
    (alignment force : Int) (f : Fault)
    (h : zipalign env in_filename out_filename alignment force = .error f) :
    alignment = 0 ∧ f = Fault.divisionByZero := by
  cases in_filename with
  | none => cases out_filename <;> cases h
  | some a =>
    cases out_filename with
    | none => cases h
    | some b =>
      simp only [zipalign] at h
      cases hp : process env a b alignment (decide (force ≠ 0)) with
      | ok r =>
        rw [hp] at h
        cases h
      | error g =>
        rw [hp] at h
        simp only [Except.error.injEq] at h
        subst h
        rw [process_openArchives] at hp
        cases hoa : openArchives env a b (decide (force ≠ 0)) with
        | mk log o =>
          rw [hoa] at hp
          cases o with
          | none => cases hp
          | some p =>
            obtain ⟨zin, zout⟩ := p
            simp only at hp
            cases hc : copyAndAlign env zin zout alignment with
            | ok r =>
              rw [hc] at hp
              cases hp
            | error g1 =>
              rw [hc] at hp
              simp only [Except.error.injEq] at hp
              subst hp
              obtain ⟨k, sk, e, _, _, _, hf⟩ := copyLoop_fault env zin alignment g1 _ _ hc
              obtain ⟨ha, _, hg⟩ := entryPadding_fault alignment sk.bias e g1 hf
              exact ⟨ha, hg⟩

theorem zipalign_ret {σ : Type} (env : Env σ) (in_filename out_filename : Option String)
    (alignment force ret : Int) (log : List Event)
    (h : zipalign env in_filename out_filename alignment force = .ok (ret, log)) :
    ret = 0 ∨ ret = 1 := by
  cases in_filename with
  | none =>
    have hz : zipalign env none out_filename alignment force = .ok (0, []) := by
      cases out_filename <;> rfl
    rw [hz] at h
    simp only [Except.ok.injEq, Prod.mk.injEq] at h
    exact Or.inl h.1.symm
  | some a =>
    cases out_filename with
    | none =>
      have hz : zipalign env (some a) none alignment force = .ok (0, []) := rfl
      rw [hz] at h
      simp only [Except.ok.injEq, Prod.mk.injEq] at h
      exact Or.inl h.1.symm
    | some b =>
      simp only [zipalign] at h
      cases hp : process env a b alignment (decide (force ≠ 0)) with
      | error g =>
        rw [hp] at h
        cases h
      | ok r =>
        obtain ⟨result, lg⟩ := r
        rw [hp] at h
        simp only [Except.ok.injEq, Prod.mk.injEq] at h
        rw [← h.1]
        by_cases hr : result = 0
        · right
          simp [hr]
        · left
          simp [hr]


theorem logOf_succeeded : ∀ (cs : List Copied) (i : Int), ∀ ev ∈ logOf i cs, ev.succeeded = true := by
  intro cs
  induction cs with
  | nil => intro i ev h; simp [logOf] at h
  | cons c cs ih =>
    intro i ev h
    simp only [logOf, List.mem_cons] at h
    rcases h with rfl | rfl | h
    · rfl
    · simp [Event.succeeded]
    · exact ih _ ev h

theorem failTail_failed (pZin : ZipFile) (alignment k b : Int) (tail : List Event)
    (h : FailTail pZin alignment k b tail) : ∃ ev ∈ tail, ev.succeeded = false := by
  rcases h with ⟨_, rfl⟩ | ⟨e, p, st, _, _, hst, rfl⟩
  · exact ⟨_, List.mem_singleton.mpr rfl, rfl⟩
  · exact ⟨Event.add e p st, by simp, by simp [Event.succeeded, hst]⟩

theorem copyAndAlign_ret {σ : Type} (env : Env σ) (pZin : ZipFile) (pZout : σ)
    (alignment ret : Int) (s : CopyState σ)
    (hrun : copyAndAlign env pZin pZout alignment = .ok (ret, s)) :
    (ret = 0 ∨ ret = 1) ∧
    (ret = 0 ↔ (s.copied.length = pZin.numEntries.toNat ∧ ∀ ev ∈ s.log, ev.succeeded = true)) := by
  obtain ⟨cs, _, hcop, _, hrest⟩ := copyLoop_run env pZin alignment _ _ _ _ hrun
  simp only [copyInit, List.nil_append] at hcop hrest
  rcases hrest with ⟨h0, hlen, _, hlog⟩ | ⟨h1, hlen, tail, htail, hlog⟩
  · refine ⟨Or.inl h0, fun _ => ⟨by rw [hcop, hlen], ?_⟩, fun _ => h0⟩
    rw [hlog]
    exact logOf_succeeded cs 0
  · refine ⟨Or.inr h1, fun h => ?_, fun h => ?_⟩
    · rw [h1] at h; cases h
    · rw [hcop] at h
      omega

theorem process_rejects {σ : Type} (env : Env σ) (inName outName : String) (alignment : Int)
    (force : Bool)
    (h : inName = outName ∨ (force = false ∧ env.access outName = 0) ∨
      (env.openRead inName [.kOpenReadOnly]).1 ≠ NO_ERROR ∨
      (env.openWrite outName [.kOpenReadWrite, .kOpenCreate, .kOpenTruncate]).1 ≠ NO_ERROR) :
    ∃ log, process env inName outName alignment force = .ok (1, log) := by
  unfold process
  by_cases h1 : inName = outName
  · rw [if_pos h1]
    exact ⟨_, rfl⟩
  · rw [if_neg h1]
    by_cases h2 : (!force && decide (env.access outName = 0)) = true
    · simp only [h2, if_true]
      exact ⟨_, rfl⟩
    · simp only [h2, Bool.false_eq_true, if_false]
      by_cases h3 : (env.openRead inName [.kOpenReadOnly]).1 = NO_ERROR
      · simp only [h3, ne_eq, not_true_eq_false, if_false]
        by_cases h4 : (env.openWrite outName
            [.kOpenReadWrite, .kOpenCreate, .kOpenTruncate]).1 = NO_ERROR
        · exfalso
          rcases h with h | ⟨hf, hacc⟩ | h | h
          · exact h1 h
          · simp [hf, hacc] at h2
          · exact h h3
          · exact h h4
        · simp only [h4, not_false_eq_true, if_true]
          exact ⟨_, rfl⟩
      · simp only [ne_eq, h3, not_false_eq_true, if_true]
        exact ⟨_, rfl⟩

theorem process_copies {σ : Type} (env : Env σ) (inName outName : String) (alignment : Int)
    (force : Bool) (h1 : inName ≠ outName) (h2 : env.access outName ≠ 0 ∨ force = true)
    (h3 : (env.openRead inName [.kOpenReadOnly]).1 = NO_ERROR)
    (h4 : (env.openWrite outName [.kOpenReadWrite, .kOpenCreate, .kOpenTruncate]).1 = NO_ERROR) :
    process env inName outName alignment force
      = match copyAndAlign env (env.openRead inName [.kOpenReadOnly]).2
          (env.openWrite outName [.kOpenReadWrite, .kOpenCreate, .kOpenTruncate]).2
          alignment with
        | .error f => .error f
        | .ok (result, s) =>
          .ok (result,
            (if force then [] else [Event.access outName (env.access outName)])
              ++ [Event.zipOpen inName [.kOpenReadOnly] NO_ERROR]
              ++ [Event.zipOpen outName [.kOpenReadWrite, .kOpenCreate, .kOpenTruncate] NO_ERROR]
              ++ s.log) := by
  have h2b : ¬ ((!force && decide (env.access outName = 0)) = true) := by
    rcases h2 with h | h
    · simp [h]
    · simp [h]
  unfold process
  simp only [h1, if_false, h2b, h3, h4, ne_eq, not_true_eq_false, Bool.false_eq_true]

theorem zipalign_one_iff {σ : Type} (env : Env σ)
    (in_filename out_filename : Option String) (alignment force : Int) :
    (AlignSucceeds env in_filename out_filename alignment force ↔
      ∃ log, zipalign env in_filename out_filename alignment force = .ok (1, log)) ∧
    (alignment ≠ 0 → ¬ AlignSucceeds env in_filename out_filename alignment force →
      ∃ log, zipalign env in_filename out_filename alignment force = .ok (0, log)) := by
  cases in_filename with
  | none =>
    have hz : zipalign env none out_filename alignment force = .ok (0, []) := by
      cases out_filename <;> rfl
    refine ⟨⟨fun h => ?_, fun h => ?_⟩, fun _ _ => ⟨_, hz⟩⟩
    · obtain ⟨a, b, h1, _⟩ := h
      cases h1
    · obtain ⟨log, h⟩ := h
      rw [hz] at h
      simp at h
  | some a =>
    cases out_filename with
    | none =>
      have hz : zipalign env (some a) none alignment force = .ok (0, []) := rfl
      refine ⟨⟨fun h => ?_, fun h => ?_⟩, fun _ _ => ⟨_, hz⟩⟩
      · obtain ⟨a1, b1, _, h2, _⟩ := h
        cases h2
      · obtain ⟨log, h⟩ := h
        rw [hz] at h
        simp at h
    | some b =>
      by_cases hR : a = b ∨ (decide (force ≠ 0) = false ∧ env.access b = 0) ∨
          (env.openRead a [.kOpenReadOnly]).1 ≠ NO_ERROR ∨
          (env.openWrite b [.kOpenReadWrite, .kOpenCreate, .kOpenTruncate]).1 ≠ NO_ERROR
      · obtain ⟨log, hp⟩ := process_rejects env a b alignment _ hR
        have hz : zipalign env (some a) (some b) alignment force = .ok (0, log) := by
          simp only [zipalign, hp]
          rfl
        have hns : ¬ AlignSucceeds env (some a) (some b) alignment force := by
          rintro ⟨a1, b1, ha, hb, hne, hacc, hin, hout, _⟩
          cases ha
          cases hb
          rcases hR with h | ⟨hf, hacc0⟩ | h | h
          · exact hne h
          · rcases hacc with h | h
            · exact h hacc0
            · simp [h] at hf
          · exact h hin
          · exact h hout
        refine ⟨⟨fun h => absurd h hns, fun h => ?_⟩, fun _ _ => ⟨_, hz⟩⟩
        obtain ⟨log1, h⟩ := h
        rw [hz] at h
        simp at h
      · simp only [not_or, not_and, ne_eq, not_not] at hR
        obtain ⟨h1, h2, h3, h4⟩ := hR
        have h2b : env.access b ≠ 0 ∨ decide (force ≠ 0) = true := by
          by_cases hf : force = 0
          · left
            exact h2 (by simp [hf])
          · right
            simp [hf]
        have hacc : env.access b ≠ 0 ∨ force ≠ 0 := by
          rcases h2b with h | h
          · exact Or.inl h
          · exact Or.inr (by simpa using h)
        have hp := process_copies env a b alignment _ h1 h2b h3 h4
        cases hrun : copyAndAlign env (env.openRead a [.kOpenReadOnly]).2
            (env.openWrite b [.kOpenReadWrite, .kOpenCreate, .kOpenTruncate]).2 alignment with
        | error f =>
          rw [hrun] at hp
          have hz : zipalign env (some a) (some b) alignment force = .error f := by
            simp only [zipalign, hp]
          have hns : ¬ AlignSucceeds env (some a) (some b) alignment force := by
            rintro ⟨a1, b1, ha, hb, _, _, _, _, hall⟩
            cases ha
            cases hb
            obtain ⟨s1, hok⟩ := (copyLoop_zero_iff env (env.openRead a [.kOpenReadOnly]).2
              alignment (env.openRead a [.kOpenReadOnly]).2.numEntries.toNat
              (copyInit (env.openWrite b
                [.kOpenReadWrite, .kOpenCreate, .kOpenTruncate]).2)).mpr hall
            unfold copyAndAlign at hrun
            rw [hrun] at hok
            cases hok
          refine ⟨⟨fun h => absurd h hns, fun h => ?_⟩, fun hal _ => ?_⟩
          · obtain ⟨log1, h⟩ := h
            rw [hz] at h
            cases h
          · obtain ⟨ret, s, hok⟩ := copyLoop_returns env (env.openRead a [.kOpenReadOnly]).2
              alignment hal (env.openRead a [.kOpenReadOnly]).2.numEntries.toNat
              (copyInit (env.openWrite b [.kOpenReadWrite, .kOpenCreate, .kOpenTruncate]).2)
            unfold copyAndAlign at hrun
            rw [hrun] at hok
            cases hok
        | ok r =>
          obtain ⟨ret, s⟩ := r
          rw [hrun] at hp
          obtain ⟨hret, _⟩ := copyAndAlign_ret env _ _ alignment ret s hrun
          have hz : ∃ log, zipalign env (some a) (some b) alignment force
              = .ok (if ret ≠ 0 then 0 else 1, log) := by
            simp only [zipalign, hp]
            exact ⟨_, rfl⟩
          obtain ⟨log, hz⟩ := hz
          have hs : AlignSucceeds env (some a) (some b) alignment force ↔ ret = 0 := by
            constructor
            · rintro ⟨a1, b1, ha, hb, _, _, _, _, hall⟩
              cases ha
              cases hb
              obtain ⟨s1, hok⟩ := (copyLoop_zero_iff env (env.openRead a [.kOpenReadOnly]).2
                alignment (env.openRead a [.kOpenReadOnly]).2.numEntries.toNat
                (copyInit (env.openWrite b
                  [.kOpenReadWrite, .kOpenCreate, .kOpenTruncate]).2)).mpr hall
              have hrun2 := hrun
              unfold copyAndAlign at hrun2
              rw [hrun2] at hok
              simp only [Except.ok.injEq, Prod.mk.injEq] at hok
              exact hok.1
            · intro h0
              subst h0
              exact ⟨a, b, rfl, rfl, h1, hacc, h3, h4,
                (copyLoop_zero_iff env (env.openRead a [.kOpenReadOnly]).2
                  alignment (env.openRead a [.kOpenReadOnly]).2.numEntries.toNat
                  (copyInit (env.openWrite b
                    [.kOpenReadWrite, .kOpenCreate, .kOpenTruncate]).2)).mp ⟨s, hrun⟩⟩
          rw [hz, hs]
          rcases hret with h0 | h1r
          · subst h0
            refine ⟨⟨fun _ => ⟨log, by simp⟩, fun _ => rfl⟩, fun _ h => absurd rfl h⟩
          · subst h1r
            refine ⟨⟨fun h => absurd h (by decide), fun h => ?_⟩, fun _ _ => ⟨log, by simp⟩⟩
            obtain ⟨log1, h⟩ := h
            simp at h

/-- Counterexample for C4: both names are given and differ, the output does not exist
and both archives open, but the alignment is 0 and the only source entry is not
compressed: the entry is not copied, so the operation does not succeed, and yet
`zipalign` does not return 0: the copier pass divides by zero. -/
theorem zipalign_returns_one_iff_counterexample :
    ¬ AlignSucceeds
        (memEnv (fun p => if p = "in.zip" then some [⟨"a", false, 5⟩] else none) 1)
        (some "in.zip") (some "out.zip") 0 0 ∧
    zipalign (memEnv (fun p => if p = "in.zip" then some [⟨"a", false, 5⟩] else none) 1)
      (some "in.zip") (some "out.zip") 0 0 = .error Fault.divisionByZero ∧
    ¬ ∃ log,
      zipalign (memEnv (fun p => if p = "in.zip" then some [⟨"a", false, 5⟩] else none) 1)
        (some "in.zip") (some "out.zip") 0 0 = .ok (0, log) := by
  have hz : zipalign
      (memEnv (fun p => if p = "in.zip" then some [⟨"a", false, 5⟩] else none) 1)
      (some "in.zip") (some "out.zip") 0 0 = .error Fault.divisionByZero := rfl
  refine ⟨?_, hz, ?_⟩
  · rintro ⟨a, b, ha, hb, _, _, _, _, hall⟩
    cases ha
    cases hb
    obtain ⟨s1, hok⟩ := (copyLoop_zero_iff
      (memEnv (fun p => if p = "in.zip" then some [⟨"a", false, 5⟩] else none) 1)
      (ZipFile.ofList [⟨"a", false, 5⟩]) 0 1 (copyInit [])).mpr hall
    have herr : copyLoop
        (memEnv (fun p => if p = "in.zip" then some [⟨"a", false, 5⟩] else none) 1)
        (ZipFile.ofList [⟨"a", false, 5⟩]) 0 1 (copyInit [])
        = .error Fault.divisionByZero := rfl
    rw [herr] at hok
    cases hok
  · rintro ⟨log, h⟩
    rw [hz] at h
    cases h

/-- C4 (result of `zipalign`, amended): `zipalign` returns 1 exactly when the whole
operation succeeds (both names non-null and different, output absent or `force`
set, both archives open, every source entry retrieved and copied without error);
in every other case it returns 0 when the alignment is not 0, and when the
alignment is 0 it either returns 0 or ends in a division by zero. -/
theorem zipalign_returns_one_iff {σ : Type} (env : Env σ)
    (in_filename out_filename : Option String) (alignment force : Int) :
    (AlignSucceeds env in_filename out_filename alignment force ↔
      ∃ log, zipalign env in_filename out_filename alignment force = .ok (1, log)) ∧
    (alignment ≠ 0 → ¬ AlignSucceeds env in_filename out_filename alignment force →
      ∃ log, zipalign env in_filename out_filename alignment force = .ok (0, log)) ∧
    (¬ AlignSucceeds env in_filename out_filename alignment force →
      (∃ log, zipalign env in_filename out_filename alignment force = .ok (0, log)) ∨
      (alignment = 0 ∧
        zipalign env in_filename out_filename alignment force
          = .error Fault.divisionByZero)) := by
  obtain ⟨h1, h2⟩ := zipalign_one_iff env in_filename out_filename alignment force
  refine ⟨h1, h2, fun hns => ?_⟩
  by_cases ha : alignment = 0
  · cases hz : zipalign env in_filename out_filename alignment force with
    | error f =>
      obtain ⟨_, hf⟩ := zipalign_fault env in_filename out_filename alignment force f hz
      exact Or.inr ⟨ha, by rw [hf]⟩
    | ok r =>
      obtain ⟨ret, log⟩ := r
      rcases zipalign_ret env in_filename out_filename alignment force ret log hz with h0 | h1r
      · subst h0
        exact Or.inl ⟨log, rfl⟩
      · subst h1r
        exact absurd (h1.mpr ⟨log, hz⟩) hns
  · exact Or.inl (h2 ha hns)

/-- Witness for C4: aligning an archive with one stored entry into a fresh output
returns 1, and with alignment 4 a call whose output already exists (no `force`) is
not a success and returns 0. -/
theorem zipalign_returns_one_iff_witness :
    (∃ log, zipalign (memEnv (fun p => if p = "in.zip" then some [⟨"a", false, 5⟩] else none) 1)
      (some "in.zip") (some "out.zip") 4 0 = .ok (1, log)) ∧
    (∃ log, zipalign (memEnv (fun _ => some [⟨"a", false, 5⟩]) 1)
      (some "in.zip") (some "out.zip") 4 0 = .ok (0, log)) :=
  ⟨⟨_, rfl⟩,
   (zipalign_returns_one_iff (memEnv (fun _ => some [⟨"a", false, 5⟩]) 1)
      (some "in.zip") (some "out.zip") 4 0).2.1 (by decide)
      (fun h => by
        obtain ⟨log, hz⟩ := (zipalign_returns_one_iff
          (memEnv (fun _ => some [⟨"a", false, 5⟩]) 1)
          (some "in.zip") (some "out.zip") 4 0).1.mp h
        have hrun : zipalign (memEnv (fun _ => some [⟨"a", false, 5⟩]) 1)
            (some "in.zip") (some "out.zip") 4 0
            = .ok (0, [Event.access "out.zip" 0]) := rfl
        rw [hrun] at hz
        simp at hz)⟩

/-- C6 (compressed pass-through): for a compressed entry, whatever its offset, the
current bias and the alignment, the loop body hands padding 0 to `add` and leaves
the bias unchanged. -/
theorem compressed_pass_through {σ : Type} (env : Env σ) (pZin : ZipFile) (alignment : Int)
    (s : CopyState σ) (e : ZipEntry) (hget : pZin.getEntryByIndex s.i = some e)
    (hc : e.isCompressed = true) :
    ∃ step, copyBody env pZin alignment s = .ok step ∧
      step.state.log = s.log ++ [Event.getEntryByIndex s.i (some e),
        Event.add e 0 (env.add s.zout pZin e 0).1] ∧
      step.state.bias = s.bias := by
  have hp : entryPadding alignment s.bias e = .ok 0 := by
    simp [entryPadding, hc]
  rw [copyBody_some env pZin alignment s e 0 hget hp]
  split
  · exact ⟨_, rfl, rfl, rfl⟩
  · exact ⟨_, rfl, rfl, by simp [Step.state, addInt_zero]⟩

/-- Witness for C6 (scenario 2): one compressed entry at offset 10 copied with
alignment 4 is handed over with padding 0 and the bias stays 0; the same holds with
alignment 0. -/
theorem compressed_pass_through_witness :
    (∃ step, copyBody (memEnv (fun _ => none) 1) (ZipFile.ofList [⟨"a", true, 10⟩]) 4
        (copyInit []) = .ok step ∧
      step.state.log = [] ++ [Event.getEntryByIndex 0 (some ⟨"a", true, 10⟩),
        Event.add ⟨"a", true, 10⟩ 0
          ((memEnv (fun _ => none) 1).add [] (ZipFile.ofList [⟨"a", true, 10⟩])
            ⟨"a", true, 10⟩ 0).1] ∧
      step.state.bias = 0) ∧
    (∃ s, copyAndAlign (memEnv (fun _ => none) 1) (ZipFile.ofList [⟨"a", true, 10⟩]) [] 4
        = .ok (0, s) ∧ s.bias = 0 ∧
      s.log = [Event.getEntryByIndex 0 (some ⟨"a", true, 10⟩),
        Event.add ⟨"a", true, 10⟩ 0 NO_ERROR]) ∧
    (∃ s, copyAndAlign (memEnv (fun _ => none) 1) (ZipFile.ofList [⟨"a", true, 10⟩]) [] 0
        = .ok (0, s) ∧ s.bias = 0) :=
  ⟨compressed_pass_through (memEnv (fun _ => none) 1) (ZipFile.ofList [⟨"a", true, 10⟩]) 4
    (copyInit []) ⟨"a", true, 10⟩ rfl rfl, ⟨_, rfl, rfl, rfl⟩, ⟨_, rfl, rfl⟩⟩

theorem logOf_add_mem : ∀ (cs : List Copied) (i : Int) (e : ZipEntry) (p : Int) (st : status_t),
    Event.add e p st ∈ logOf i cs → ∃ c ∈ cs, c.pEntry = e ∧ c.padding = p ∧ st = NO_ERROR := by
  intro cs
  induction cs with
  | nil => intro i e p st h; simp [logOf] at h
  | cons c cs ih =>
    intro i e p st h
    simp only [logOf, List.mem_cons] at h
    rcases h with h | h | h
    · cases h
    · simp only [Event.add.injEq] at h
      exact ⟨c, List.mem_cons_self _ _, h.1.symm, h.2.1.symm, h.2.2⟩
    · obtain ⟨c1, hc1, h1⟩ := ih _ e p st h
      exact ⟨c1, List.mem_cons_of_mem _ hc1, h1⟩

theorem logOf_getEntry_mem : ∀ (cs : List Copied) (i j : Int) (r : Option ZipEntry),
    Event.getEntryByIndex j r ∈ logOf i cs → i ≤ j ∧ j < i + cs.length := by
  intro cs
  induction cs with
  | nil => intro i j r h; simp [logOf] at h
  | cons c cs ih =>
    intro i j r h
    simp only [logOf, List.mem_cons] at h
    rcases h with h | h | h
    · simp only [Event.getEntryByIndex.injEq] at h
      simp only [List.length_cons]
      omega
    · cases h
    · have := ih _ j r h
      simp only [List.length_cons]
      omega

theorem CopiedFrom_aligned (pZin : ZipFile) (alignment : Int) (ha : 0 < alignment) :
    ∀ (cs : List Copied) (i : Int), CopiedFrom pZin alignment i 0 cs →
      (∀ c ∈ cs, c.pEntry.isCompressed = false → alignment ∣ c.pEntry.fileOffset) →
      ∀ c ∈ cs, c.padding = 0 ∧ c.bias = 0 := by
  intro cs
  induction cs with
  | nil => intro i _ _ c hc; simp at hc
  | cons c0 cs ih =>
    intro i h hal
    obtain ⟨_, hp, hb, hrest⟩ := h
    have hp0 : c0.padding = 0 := by
      cases hc : c0.pEntry.isCompressed with
      | true =>
        rw [entryPadding_compressed alignment 0 c0.pEntry hc] at hp
        simp only [Except.ok.injEq] at hp
        exact hp.symm
      | false =>
        rw [entryPadding_stored alignment 0 c0.pEntry (ne_of_gt ha) hc, addLong_zero,
          (tmod_eq_zero_iff_dvd _ _).mpr (hal c0 (List.mem_cons_self _ _) hc), sub_zero,
          Int.tmod_self] at hp
        simp only [Except.ok.injEq] at hp
        rw [← hp]
        rfl
    have hb0 : c0.bias = 0 := by rw [hb, hp0, addInt_zero]
    intro c hc
    rcases List.mem_cons.mp hc with rfl | hmem
    · exact ⟨hp0, hb0⟩
    · rw [hb0] at hrest
      exact ih (i + 1) hrest (fun c1 h1 => hal c1 (List.mem_cons_of_mem _ h1)) c hmem

theorem biasAfter_of_zero : ∀ (cs : List Copied), (∀ c ∈ cs, c.bias = 0) → biasAfter 0 cs = 0 := by
  intro cs
  induction cs with
  | nil => intro _; rfl
  | cons c cs ih =>
    intro h
    simp only [biasAfter]
    rw [h c (List.mem_cons_self _ _)]
    exact ih (fun c1 h1 => h c1 (List.mem_cons_of_mem _ h1))

/-- C7 (idempotence): for a positive alignment and a source entry list whose
non-compressed entries all lie at multiples of the alignment, a copier pass in
which all copies succeed hands padding 0 to `add` for every entry and ends with
bias 0; the destination entries equal the source entries and `verify` on the
result returns 0. -/
theorem idempotence {σ τ : Type} (env : Env σ) (es : List ZipEntry) (pZout : σ)
    (alignment : Int) (s : CopyState σ) (env2 : Env τ) (fileName : String) (verbose : Bool)
    (ha : 0 < alignment)
    (hal : ∀ e ∈ es, e.isCompressed = false → e.fileOffset % alignment = 0)
    (hrun : copyAndAlign env (ZipFile.ofList es) pZout alignment = .ok (0, s))
    (hopen : env2.openRead fileName [.kOpenReadOnly]
      = (NO_ERROR, ZipFile.ofList (destination s.copied))) :
    (∀ e p st, Event.add e p st ∈ s.log → p = 0) ∧
    (∀ c ∈ s.copied, c.padding = 0 ∧ c.bias = 0) ∧
    s.bias = 0 ∧
    destination s.copied = es ∧
    ∃ out, verify env2 fileName alignment verbose = .ok (0, out) := by
  obtain ⟨hcs, hlen, hbias, hlog⟩ := copyAndAlign_success env _ pZout alignment s hrun
  rw [ofList_numEntries] at hlen
  have hes := copiedFrom_ofList alignment es s.copied 0 hcs hlen
  have hal2 : ∀ c ∈ s.copied, c.pEntry.isCompressed = false → alignment ∣ c.pEntry.fileOffset := by
    intro c hc hcomp
    have hmem : c.pEntry ∈ es := by
      rw [← hes]
      exact List.mem_map.mpr ⟨c, hc, rfl⟩
    exact Int.dvd_of_emod_eq_zero (hal _ hmem hcomp)
  have hzero := CopiedFrom_aligned _ alignment ha s.copied 0 hcs hal2
  have hdest : destination s.copied = es := by
    rw [← hes]
    unfold destination
    apply List.map_congr_left
    intro c hc
    rw [(hzero c hc).2, add_zero]
  refine ⟨?_, hzero, ?_, hdest, ?_⟩
  · intro e p st hmem
    rw [hlog] at hmem
    obtain ⟨c, hc, _, hp, _⟩ := logOf_add_mem _ _ e p st hmem
    rw [← hp]
    exact (hzero c hc).1
  · rw [hbias]
    exact biasAfter_of_zero _ (fun c hc => (hzero c hc).2)
  · apply verify_aligned env2 fileName alignment verbose _ (ne_of_gt ha) _ hopen
    rw [hdest]
    intro d hd hc
    exact Int.dvd_of_emod_eq_zero (hal d hd hc)

/-- Witness for C7: an archive with stored entries at offsets 0 and 8 and a compressed
entry at offset 5 is copied with alignment 4 without any padding, and the result
verifies. -/
theorem idempotence_witness :
    ∃ s, copyAndAlign (memEnv (fun _ => none) 3)
        (ZipFile.ofList [⟨"a", false, 0⟩, ⟨"b", true, 5⟩, ⟨"c", false, 8⟩]) [] 4 = .ok (0, s) ∧
      s.bias = 0 ∧
      destination s.copied = [⟨"a", false, 0⟩, ⟨"b", true, 5⟩, ⟨"c", false, 8⟩] ∧
      ∃ out, verify
        (memEnv (fun _ => some [⟨"a", false, 0⟩, ⟨"b", true, 5⟩, ⟨"c", false, 8⟩]) 0)
        "out.zip" 4 false = .ok (0, out) :=
  ⟨{ i := 3, bias := 0,
     zout := [(⟨"a", false, 0⟩, 0), (⟨"b", true, 5⟩, 0), (⟨"c", false, 8⟩, 0)],
     log := logOf 0 [⟨⟨"a", false, 0⟩, 0, 0⟩, ⟨⟨"b", true, 5⟩, 0, 0⟩, ⟨⟨"c", false, 8⟩, 0, 0⟩],
     copied := [⟨⟨"a", false, 0⟩, 0, 0⟩, ⟨⟨"b", true, 5⟩, 0, 0⟩, ⟨⟨"c", false, 8⟩, 0, 0⟩] },
   rfl,
   (idempotence (memEnv (fun _ => none) 3)
      [⟨"a", false, 0⟩, ⟨"b", true, 5⟩, ⟨"c", false, 8⟩] [] 4 _
      (memEnv (fun _ => some [⟨"a", false, 0⟩, ⟨"b", true, 5⟩, ⟨"c", false, 8⟩]) 0)
      "out.zip" false (by decide) (by decide) rfl rfl).2.2⟩

theorem CopiedExact_chain (pZin : ZipFile) (alignment : Int) (ha : 0 < alignment) :
    ∀ (cs : List Copied) (i b : Int), CopiedExact pZin alignment i b cs →
      List.Chain (fun x y : Int => x ≤ y) b (cs.map (fun c => c.bias)) := by
  intro cs
  induction cs with
  | nil => intro i b _; exact List.Chain.nil
  | cons c cs ih =>
    intro i b h
    obtain ⟨_, hp, hb, hrest⟩ := h
    have h0 := (entryPaddingExact_spec alignment b c.pEntry c.padding ha hp).1
    exact List.Chain.cons (by show b ≤ c.bias; omega) (ih _ _ hrest)

/-- Counterexample for C8: with alignment 1000000000 the stored entries at offsets 100,
200 and 300 (non-negative, every copy succeeding) each get padding 999999900; the
`int` bias goes 999999900, 1999999800 and then wraps around to -1294967596: it
decreases, becomes negative, and differs from the sum 2999999700 of the paddings. -/
theorem bias_invariant_counterexample :
    (0 : Int) < 1000000000 ∧
    (∀ e ∈ [(⟨"a", false, 100⟩ : ZipEntry), ⟨"b", false, 200⟩, ⟨"c", false, 300⟩],
      0 ≤ e.fileOffset) ∧
    ∃ s, copyLoop (memEnv (fun _ => none) 3)
        (ZipFile.ofList [⟨"a", false, 100⟩, ⟨"b", false, 200⟩, ⟨"c", false, 300⟩])
        1000000000 3 (copyInit []) = .ok (0, s) ∧
      s.copied.map (fun c => c.padding) = [999999900, 999999900, 999999900] ∧
      s.copied.map (fun c => c.bias) = [999999900, 1999999800, -1294967596] ∧
      s.bias = -1294967596 ∧
      (s.copied.map (fun c => c.padding)).sum = 2999999700 ∧
      s.bias ≠ (s.copied.map (fun c => c.padding)).sum ∧
      ¬ List.Chain (fun x y : Int => x ≤ y) 0 (s.copied.map (fun c => c.bias)) :=
  ⟨by decide, by decide,
   { i := 3, bias := -1294967596,
     zout := [(⟨"a", false, 100⟩, 999999900), (⟨"b", false, 200⟩, 999999900),
       (⟨"c", false, 300⟩, 999999900)],
     log := logOf 0 [⟨⟨"a", false, 100⟩, 999999900, 999999900⟩,
       ⟨⟨"b", false, 200⟩, 999999900, 1999999800⟩,
       ⟨⟨"c", false, 300⟩, 999999900, -1294967596⟩],
     copied := [⟨⟨"a", false, 100⟩, 999999900, 999999900⟩,
       ⟨⟨"b", false, 200⟩, 999999900, 1999999800⟩,
       ⟨⟨"c", false, 300⟩, 999999900, -1294967596⟩] },
   rfl, rfl, rfl, rfl, rfl, by decide, by simp⟩

/-- C8 (bias invariant, amended): for a positive alignment and a source entry list with
non-negative offsets, after any number `n` of iterations of the copier loop that ran
without wrap-around (`NoOverflow`: the alignment is an `int`, the paddings sum to at
most `INT_MAX`, and the projected offset of every non-compressed entry is at most
`LONG_MAX`), the bias started at 0, the successive values of the bias never
decrease, every padding is non-negative, the bias after each copied entry is the sum
of the paddings up to and including it, and the current bias is the sum of the
paddings of all entries copied so far; a run of `n` successful iterations is a
prefix of the whole pass. -/
theorem bias_invariant {σ : Type} (env : Env σ) (es : List ZipEntry) (pZout : σ)
    (alignment : Int) (n : Nat) (ret : Int) (s : CopyState σ)
    (ha : 0 < alignment) (hoff : ∀ e ∈ es, 0 ≤ e.fileOffset)
    (hfit : NoOverflow alignment s.copied) (hn : n ≤ es.length)
    (hrun : copyLoop env (ZipFile.ofList es) alignment n (copyInit pZout) = .ok (ret, s)) :
    (copyInit pZout).bias = 0 ∧
    List.Chain (fun x y : Int => x ≤ y) 0 (s.copied.map (fun c => c.bias)) ∧
    (∀ (k : Nat) (c : Copied), s.copied[k]? = some c →
      0 ≤ c.padding ∧
      c.bias = ((s.copied.take (k + 1)).map (fun c => c.padding)).sum) ∧
    s.bias = (s.copied.map (fun c => c.padding)).sum ∧
    0 ≤ s.bias ∧
    (ret = 0 → copyAndAlign env (ZipFile.ofList es) pZout alignment
      = copyLoop env (ZipFile.ofList es) alignment (es.length - n) s) := by
  obtain ⟨cs, hcs0, hcop, hbias, _⟩ := copyLoop_run env _ alignment _ _ _ _ hrun
  simp only [copyInit, List.nil_append] at hcs0 hcop hbias
  rw [← hcop] at hcs0 hbias
  have hcs := copiedFrom_ofList_exact alignment es s.copied ha hoff hfit hcs0
  obtain ⟨hsum, hk⟩ := CopiedExact_bias _ alignment s.copied 0 0 hcs
  have hrec := CopiedExact_records _ alignment ha s.copied 0 0 hcs
  have hsum2 : s.bias = (s.copied.map (fun c => c.padding)).sum := by
    rw [hbias, hsum, zero_add]
  refine ⟨rfl, CopiedExact_chain _ alignment ha s.copied 0 0 hcs, ?_, hsum2, ?_, ?_⟩
  · intro k c hc
    refine ⟨(hrec c (List.getElem?_mem hc)).1, ?_⟩
    rw [(hk k c hc).1, zero_add]
  · rw [hsum2]
    apply List.sum_nonneg
    intro x hx
    obtain ⟨c, hc, rfl⟩ := List.mem_map.mp hx
    exact (hrec c hc).1
  · intro h0
    subst h0
    have := copyLoop_split env (ZipFile.ofList es) alignment (es.length - n) n _ _ hrun
    unfold copyAndAlign
    rw [ofList_numEntries, ← this]
    congr 1
    omega

/-- Witness for C8 (scenario 3): stored entries at offsets 0, 7 and 15 with alignment 4
get paddings 0, 1, 0, the bias takes the values 0, 1, 1, and the entries land at
offsets 0, 8 and 16. -/
theorem bias_invariant_witness :
    ∃ s, copyLoop (memEnv (fun _ => none) 3)
        (ZipFile.ofList [⟨"a", false, 0⟩, ⟨"b", false, 7⟩, ⟨"c", false, 15⟩]) 4 3
        (copyInit []) = .ok (0, s) ∧
      s.copied.map (fun c => c.padding) = [0, 1, 0] ∧
      s.copied.map (fun c => c.bias) = [0, 1, 1] ∧
      (destination s.copied).map (fun e => e.fileOffset) = [0, 8, 16] ∧
      s.bias = (s.copied.map (fun c => c.padding)).sum ∧ 0 ≤ s.bias :=
  ⟨{ i := 3, bias := 1,
     zout := [(⟨"a", false, 0⟩, 0), (⟨"b", false, 7⟩, 1), (⟨"c", false, 15⟩, 0)],
     log := logOf 0 [⟨⟨"a", false, 0⟩, 0, 0⟩, ⟨⟨"b", false, 7⟩, 1, 1⟩, ⟨⟨"c", false, 15⟩, 0, 1⟩],
     copied := [⟨⟨"a", false, 0⟩, 0, 0⟩, ⟨⟨"b", false, 7⟩, 1, 1⟩, ⟨⟨"c", false, 15⟩, 0, 1⟩] },
   rfl, rfl, rfl, rfl,
   ((bias_invariant (memEnv (fun _ => none) 3)
      [⟨"a", false, 0⟩, ⟨"b", false, 7⟩, ⟨"c", false, 15⟩] [] 4 3 0 _
      (by decide) (by decide) ⟨by decide, by decide, by decide⟩ (by decide) rfl).2.2.2.1),
   ((bias_invariant (memEnv (fun _ => none) 3)
      [⟨"a", false, 0⟩, ⟨"b", false, 7⟩, ⟨"c", false, 15⟩] [] 4 3 0 _
      (by decide) (by decide) ⟨by decide, by decide, by decide⟩ (by decide) rfl).2.2.2.2.1)⟩

/-- C9 (abort on copy failure): when the first `k` iterations of the pass succeed and
`add` fails for the entry at index `k`, `copyAndAlign` returns 1 with that failed
call as the last logged call; before it exactly the entries at indices `0..k-1`
were retrieved and copied, in order, and no index greater than `k` is retrieved. -/
theorem abort_on_copy_failure {σ : Type} (env : Env σ) (pZin : ZipFile) (pZout : σ)
    (alignment : Int) (k : Nat) (sk : CopyState σ) (e : ZipEntry) (p : Int)
    (hk : (k : Int) < pZin.numEntries)
    (hfirst : copyLoop env pZin alignment k (copyInit pZout) = .ok (0, sk))
    (hget : pZin.getEntryByIndex k = some e)
    (hpad : entryPadding alignment sk.bias e = .ok p)
    (hfail : (env.add sk.zout pZin e p).1 ≠ NO_ERROR) :
    copyAndAlign env pZin pZout alignment
      = .ok (1, { sk with
          zout := (env.add sk.zout pZin e p).2,
          log := sk.log ++ [Event.getEntryByIndex k (some e),
            Event.add e p (env.add sk.zout pZin e p).1] }) ∧
    sk.log = logOf 0 sk.copied ∧
    sk.copied.length = k ∧
    (∀ (j : Nat) (c : Copied), sk.copied[j]? = some c →
      pZin.getEntryByIndex j = some c.pEntry) ∧
    (∀ (j : Int) (r : Option ZipEntry),
      Event.getEntryByIndex j r ∈ sk.log ++ [Event.getEntryByIndex k (some e),
        Event.add e p (env.add sk.zout pZin e p).1] → 0 ≤ j ∧ j ≤ k) := by
  obtain ⟨cs, hcs, hcop, _, hrest⟩ := copyLoop_run env pZin alignment _ _ _ _ hfirst
  simp only [copyInit, List.nil_append, zero_add] at hcs hcop hrest
  rcases hrest with ⟨_, hlen, hi, hlog⟩ | ⟨h1, _⟩
  swap
  · exact absurd h1 (by decide)
  rw [← hcop] at hcs hlen hlog
  have hgeti : pZin.getEntryByIndex sk.i = some e := by rw [hi]; exact hget
  have hn : pZin.numEntries.toNat = k + ((pZin.numEntries.toNat - k - 1) + 1) := by omega
  refine ⟨?_, hlog, hlen, ?_, ?_⟩
  · unfold copyAndAlign
    rw [hn, copyLoop_split env pZin alignment _ k _ _ hfirst, copyLoop,
      copyBody_some env pZin alignment sk e p hgeti hpad]
    simp only [ne_eq, hfail, not_false_eq_true, if_true, hi]
  · intro j c hj
    have := CopiedFrom_getEntry pZin alignment sk.copied 0 0 hcs j c hj
    rwa [zero_add] at this
  · intro j r hmem
    rw [List.mem_append] at hmem
    rcases hmem with hmem | hmem
    · rw [hlog] at hmem
      have := logOf_getEntry_mem _ _ _ _ hmem
      omega
    · simp only [List.mem_cons, Event.getEntryByIndex.injEq, List.mem_singleton] at hmem
      rcases hmem with ⟨rfl, _⟩ | hmem
      · omega
      · simp at hmem

/-- Witness for C9: with a writer that accepts one entry only, copying three stored
entries at offsets 0, 7, 15 with alignment 4 fails at index 1 and returns 1; the log
ends with the failed call and the entry at index 2 is never retrieved. -/
theorem abort_on_copy_failure_witness :
    ∃ s, copyAndAlign (memEnv (fun _ => none) 1)
        (ZipFile.ofList [⟨"a", false, 0⟩, ⟨"b", false, 7⟩, ⟨"c", false, 15⟩]) [] 4 = .ok (1, s) ∧
      s.log = [Event.getEntryByIndex 0 (some ⟨"a", false, 0⟩), Event.add ⟨"a", false, 0⟩ 0 0,
        Event.getEntryByIndex 1 (some ⟨"b", false, 7⟩), Event.add ⟨"b", false, 7⟩ 1 (-1)] :=
  ⟨_, (abort_on_copy_failure (memEnv (fun _ => none) 1)
      (ZipFile.ofList [⟨"a", false, 0⟩, ⟨"b", false, 7⟩, ⟨"c", false, 15⟩]) [] 4 1
      { i := 1, bias := 0, zout := [(⟨"a", false, 0⟩, 0)],
        log := [Event.getEntryByIndex 0 (some ⟨"a", false, 0⟩), Event.add ⟨"a", false, 0⟩ 0 0],
        copied := [⟨⟨"a", false, 0⟩, 0, 0⟩] }
      ⟨"b", false, 7⟩ 1 (by decide) rfl rfl rfl (by decide)).1, rfl⟩

/-- C10 (same-path rejection): when the input path equals the output path, whatever
the alignment and the force flag, `process` returns 1 and `zipalign` returns 0 with
an empty log: no `access`, no archive opened, no entry retrieved or copied.  The
same holds when both names are null. -/
theorem same_path_rejected {σ : Type} (env : Env σ) (alignment force : Int) :
    (∀ path : String, zipalign env (some path) (some path) alignment force = .ok (0, [])) ∧
    (∀ name : Option String, zipalign env name name alignment force = .ok (0, [])) ∧
    ∀ (path : String) (b : Bool), process env path path alignment b = .ok (1, []) := by
  have hp : ∀ (path : String) (b : Bool), process env path path alignment b = .ok (1, []) := by
    intro path b
    simp [process]
  have hz : ∀ path : String,
      zipalign env (some path) (some path) alignment force = .ok (0, []) := by
    intro path
    simp only [zipalign, hp]
    rfl
  refine ⟨hz, ?_, hp⟩
  intro name
  cases name with
  | none => rfl
  | some path => exact hz path

/-! ## The existing-output rule -/

theorem copyLoop_congr_add {σ : Type} (env1 env2 : Env σ) (pZin : ZipFile) (alignment : Int)
    (h : env1.add = env2.add) :
    ∀ (n : Nat) (s : CopyState σ),
      copyLoop env1 pZin alignment n s = copyLoop env2 pZin alignment n s := by
  intro n
  induction n with
  | zero => intro s; rfl
  | succ n ih =>
    intro s
    have hb : copyBody env1 pZin alignment s = copyBody env2 pZin alignment s := by
      simp only [copyBody, h]
    simp only [copyLoop, hb, ih]

theorem zipalign_force_ignores_access {σ : Type} (env : Env σ) (inName outName : String)
    (alignment force : Int) (hf : force ≠ 0) (acc : String → Int) :
    zipalign { env with access := acc } (some inName) (some outName) alignment force
      = zipalign env (some inName) (some outName) alignment force := by
  have hc := copyLoop_congr_add { env with access := acc } env
    (env.openRead inName [.kOpenReadOnly]).2 alignment rfl
  simp [zipalign, process, hf, copyAndAlign, hc]

/-- Counterexample for C11: with `force` set, distinct paths and an output that exists,
a call whose input archive does not open returns 0 after the single failed open
of the input; the output is not opened at all, in any mode. -/
theorem existing_output_rule_counterexample :
    ("in.zip" : String) ≠ "out.zip" ∧ (1 : Int) ≠ 0 ∧
    (memEnv (fun p => if p = "out.zip" then some [] else none) 1).access "out.zip" = 0 ∧
    zipalign (memEnv (fun p => if p = "out.zip" then some [] else none) 1)
      (some "in.zip") (some "out.zip") 4 1
      = .ok (0, [Event.zipOpen "in.zip" [.kOpenReadOnly] (-1)]) ∧
    ¬ ∃ ret log flags st,
      zipalign (memEnv (fun p => if p = "out.zip" then some [] else none) 1)
        (some "in.zip") (some "out.zip") 4 1 = .ok (ret, log) ∧
      Event.zipOpen "out.zip" flags st ∈ log := by
  refine ⟨by decide, by decide, rfl, rfl, ?_⟩
  rintro ⟨ret, log, flags, st, h, hmem⟩
  have hrun : zipalign (memEnv (fun p => if p = "out.zip" then some [] else none) 1)
      (some "in.zip") (some "out.zip") 4 1
      = .ok (0, [Event.zipOpen "in.zip" [.kOpenReadOnly] (-1)]) := rfl
  rw [hrun] at h
  simp only [Except.ok.injEq, Prod.mk.injEq] at h
  obtain ⟨_, rfl⟩ := h
  simp only [List.mem_singleton, Event.zipOpen.injEq] at hmem
  exact absurd hmem.1 (by decide)

/-- C11 (existing-output rule, amended): for distinct input and output paths, if the
output exists and `force` is not set, `zipalign` returns 0 after the `access` call
alone, before any archive is opened.  If `force` is set, the result does not depend
on `access` at all; when the input archive fails to open the call returns 0 with
that failed open as its only call; and once the input archive has opened, for every
alignment, the calls made before the copier pass are the open of the input and the
open of the output in read-write, create, truncate mode, `process` continues from
them as `openArchives` says, and the log of every call that returns starts with
these two opens. -/
theorem existing_output_rule {σ : Type} (env : Env σ) (inName outName : String)
    (alignment force : Int) (hne : inName ≠ outName) :
    (force = 0 → env.access outName = 0 →
      zipalign env (some inName) (some outName) alignment force
        = .ok (0, [Event.access outName 0])) ∧
    (force ≠ 0 →
      (∀ acc : String → Int,
        zipalign { env with access := acc } (some inName) (some outName) alignment force
          = zipalign env (some inName) (some outName) alignment force) ∧
      ((env.openRead inName [.kOpenReadOnly]).1 ≠ NO_ERROR →
        zipalign env (some inName) (some outName) alignment force
          = .ok (0, [Event.zipOpen inName [.kOpenReadOnly]
              (env.openRead inName [.kOpenReadOnly]).1])) ∧
      ((env.openRead inName [.kOpenReadOnly]).1 = NO_ERROR →
        (openArchives env inName outName (decide (force ≠ 0))).1
          = [Event.zipOpen inName [.kOpenReadOnly] NO_ERROR,
             Event.zipOpen outName [.kOpenReadWrite, .kOpenCreate, .kOpenTruncate]
               (env.openWrite outName [.kOpenReadWrite, .kOpenCreate, .kOpenTruncate]).1] ∧
        process env inName outName alignment (decide (force ≠ 0))
          = (match openArchives env inName outName (decide (force ≠ 0)) with
             | (log, none) => .ok (1, log)
             | (log, some (zin, zout)) =>
               match copyAndAlign env zin zout alignment with
               | .error f => .error f
               | .ok (result, s) => .ok (result, log ++ s.log)) ∧
        (∀ ret log, zipalign env (some inName) (some outName) alignment force
            = .ok (ret, log) →
          ∃ rest, log = Event.zipOpen inName [.kOpenReadOnly] NO_ERROR
            :: Event.zipOpen outName [.kOpenReadWrite, .kOpenCreate, .kOpenTruncate]
                (env.openWrite outName [.kOpenReadWrite, .kOpenCreate, .kOpenTruncate]).1
            :: rest) ∧
        (alignment ≠ 0 →
          ∃ ret rest, zipalign env (some inName) (some outName) alignment force
            = .ok (ret, Event.zipOpen inName [.kOpenReadOnly] NO_ERROR
                :: Event.zipOpen outName [.kOpenReadWrite, .kOpenCreate, .kOpenTruncate]
                    (env.openWrite outName
                      [.kOpenReadWrite, .kOpenCreate, .kOpenTruncate]).1
                :: rest)))) := by
  refine ⟨?_, ?_⟩
  · intro hf hacc
    simp [zipalign, process, hne, hf, hacc]
  · intro hf
    refine ⟨zipalign_force_ignores_access env inName outName alignment force hf, ?_, ?_⟩
    · intro hin
      simp [zipalign, process, hne, hf, hin]
    · intro hin
      have hoa : (openArchives env inName outName (decide (force ≠ 0))).1
          = [Event.zipOpen inName [.kOpenReadOnly] NO_ERROR,
             Event.zipOpen outName [.kOpenReadWrite, .kOpenCreate, .kOpenTruncate]
               (env.openWrite outName
                 [.kOpenReadWrite, .kOpenCreate, .kOpenTruncate]).1] := by
        by_cases hout : (env.openWrite outName
            [.kOpenReadWrite, .kOpenCreate, .kOpenTruncate]).1 = NO_ERROR
        · simp [openArchives, hne, hf, hin, hout]
        · simp [openArchives, hne, hf, hin, hout]
      have hproc := process_openArchives env inName outName alignment (decide (force ≠ 0))
      refine ⟨hoa, hproc, ?_, ?_⟩
      · intro ret log hz
        simp only [zipalign, hproc] at hz
        cases hc : openArchives env inName outName (decide (force ≠ 0)) with
        | mk lg o =>
          rw [hc] at hz hoa
          simp only at hoa
          subst hoa
          cases o with
          | none =>
            simp only [Except.ok.injEq, Prod.mk.injEq] at hz
            exact ⟨[], hz.2.symm⟩
          | some p =>
            obtain ⟨zin, zout⟩ := p
            simp only at hz
            cases hrun : copyAndAlign env zin zout alignment with
            | error f =>
              rw [hrun] at hz
              cases hz
            | ok r =>
              obtain ⟨result, st⟩ := r
              rw [hrun] at hz
              simp only [Except.ok.injEq, Prod.mk.injEq] at hz
              exact ⟨st.log, hz.2.symm⟩
      · intro ha
        by_cases hout : (env.openWrite outName
            [.kOpenReadWrite, .kOpenCreate, .kOpenTruncate]).1 = NO_ERROR
        · obtain ⟨ret, s, hrun⟩ := copyLoop_returns env
            (env.openRead inName [.kOpenReadOnly]).2
            alignment ha (env.openRead inName [.kOpenReadOnly]).2.numEntries.toNat
            (copyInit (env.openWrite outName
              [.kOpenReadWrite, .kOpenCreate, .kOpenTruncate]).2)
          refine ⟨if ret ≠ 0 then 0 else 1, s.log, ?_⟩
          simp [zipalign, process, hne, hf, hin, hout, copyAndAlign, hrun]
        · refine ⟨0, [], ?_⟩
          simp [zipalign, process, hne, hf, hin, hout]

/-- Witness for C11: with an existing output, a call without `force` is rejected after
the `access` call, and the same call with `force` opens the input and then the
output in read-write, create, truncate mode, also when the alignment is 0. -/
theorem existing_output_rule_witness :
    zipalign (memEnv (fun _ => some [⟨"a", false, 5⟩]) 1) (some "in.zip") (some "out.zip") 4 0
      = .ok (0, [Event.access "out.zip" 0]) ∧
    (∃ ret rest,
      zipalign (memEnv (fun _ => some [⟨"a", false, 5⟩]) 1) (some "in.zip") (some "out.zip") 4 1
        = .ok (ret, Event.zipOpen "in.zip" [.kOpenReadOnly] NO_ERROR
            :: Event.zipOpen "out.zip" [.kOpenReadWrite, .kOpenCreate, .kOpenTruncate]
                ((memEnv (fun _ => some [⟨"a", false, 5⟩]) 1).openWrite "out.zip"
                  [.kOpenReadWrite, .kOpenCreate, .kOpenTruncate]).1
            :: rest)) ∧
    (openArchives (memEnv (fun _ => some [⟨"a", false, 5⟩]) 1) "in.zip" "out.zip"
        (decide ((1 : Int) ≠ 0))).1
      = [Event.zipOpen "in.zip" [.kOpenReadOnly] NO_ERROR,
         Event.zipOpen "out.zip" [.kOpenReadWrite, .kOpenCreate, .kOpenTruncate]
           ((memEnv (fun _ => some [⟨"a", false, 5⟩]) 1).openWrite "out.zip"
             [.kOpenReadWrite, .kOpenCreate, .kOpenTruncate]).1] ∧
    zipalign (memEnv (fun _ => some [⟨"a", false, 5⟩]) 1) (some "in.zip") (some "out.zip") 0 1
      = .error Fault.divisionByZero :=
  ⟨(existing_output_rule (memEnv (fun _ => some [⟨"a", false, 5⟩]) 1) "in.zip" "out.zip" 4 0
      (by decide)).1 rfl rfl,
   (((existing_output_rule (memEnv (fun _ => some [⟨"a", false, 5⟩]) 1) "in.zip" "out.zip" 4 1
      (by decide)).2 (by decide)).2.2 rfl).2.2.2 (by decide),
   (((existing_output_rule (memEnv (fun _ => some [⟨"a", false, 5⟩]) 1) "in.zip" "out.zip" 0 1
      (by decide)).2 (by decide)).2.2 rfl).1,
   rfl⟩


/-! ## Order, completeness and missing entries -/

theorem addedEntries_logOf : ∀ (cs : List Copied) (i : Int),
    addedEntries (logOf i cs) = cs.map (fun c => c.pEntry) := by
  intro cs
  induction cs with
  | nil => intro i; rfl
  | cons c cs ih =>
    intro i
    simp only [logOf, addedEntries, List.map_cons]
    rw [ih]

theorem addedEntries_append (l1 l2 : List Event) :
    addedEntries (l1 ++ l2) = addedEntries l1 ++ addedEntries l2 := by
  induction l1 with
  | nil => rfl
  | cons ev l1 ih =>
    cases ev <;> simp [addedEntries, ih]

/-- C12 (order and completeness): when `copyAndAlign` returns 0, the entries handed to
`add`, in call order, are exactly the source entries at indices `0..numEntries-1`,
each once; for a source given by an entry list they are that list; and for a source
with no entries the function returns 0 without any call. -/
theorem order_and_completeness {σ : Type} (env : Env σ) (pZin : ZipFile) (pZout : σ)
    (alignment : Int) :
    (∀ s, copyAndAlign env pZin pZout alignment = .ok (0, s) →
      (addedEntries s.log).length = pZin.numEntries.toNat ∧
      (∀ j : Nat, j < pZin.numEntries.toNat →
        pZin.getEntryByIndex j = (addedEntries s.log)[j]?) ∧
      ∀ es, pZin = ZipFile.ofList es → addedEntries s.log = es) ∧
    (pZin.numEntries ≤ 0 →
      copyAndAlign env pZin pZout alignment = .ok (0, copyInit pZout) ∧
      (copyInit pZout).log = []) := by
  refine ⟨?_, ?_⟩
  · intro s hrun
    obtain ⟨hcs, hlen, _, hlog⟩ := copyAndAlign_success env pZin pZout alignment s hrun
    have hadd : addedEntries s.log = s.copied.map (fun c => c.pEntry) := by
      rw [hlog, addedEntries_logOf]
    refine ⟨by rw [hadd, List.length_map, hlen], ?_, ?_⟩
    · intro j hj
      rw [← hlen] at hj
      have hc : s.copied[j]? = some s.copied[j] := List.getElem?_eq_getElem hj
      have := CopiedFrom_getEntry pZin alignment s.copied 0 0 hcs j _ hc
      rw [zero_add] at this
      rw [this, hadd, List.getElem?_map, hc]
      rfl
    · intro es hes
      subst hes
      rw [hadd]
      rw [ofList_numEntries] at hlen
      exact copiedFrom_ofList alignment es s.copied 0 hcs hlen
  · intro h0
    have : pZin.numEntries.toNat = 0 := by omega
    exact ⟨by simp only [copyAndAlign, this, copyLoop], rfl⟩

/-- Witness for C12: three entries copied with alignment 4 reach the writer in source
order, and an empty source returns 0 at once. -/
theorem order_and_completeness_witness :
    (∃ s, copyAndAlign (memEnv (fun _ => none) 3)
        (ZipFile.ofList [⟨"a", false, 0⟩, ⟨"b", true, 7⟩, ⟨"c", false, 15⟩]) [] 4 = .ok (0, s) ∧
      addedEntries s.log = [⟨"a", false, 0⟩, ⟨"b", true, 7⟩, ⟨"c", false, 15⟩]) ∧
    copyAndAlign (memEnv (fun _ => none) 3) (ZipFile.ofList []) [] 4 = .ok (0, copyInit []) :=
  ⟨⟨_, rfl, ((order_and_completeness (memEnv (fun _ => none) 3)
      (ZipFile.ofList [⟨"a", false, 0⟩, ⟨"b", true, 7⟩, ⟨"c", false, 15⟩]) [] 4).1
      { i := 3, bias := 1,
        zout := [(⟨"a", false, 0⟩, 0), (⟨"b", true, 7⟩, 0), (⟨"c", false, 15⟩, 1)],
        log := logOf 0 [⟨⟨"a", false, 0⟩, 0, 0⟩, ⟨⟨"b", true, 7⟩, 0, 0⟩, ⟨⟨"c", false, 15⟩, 1, 1⟩],
        copied := [⟨⟨"a", false, 0⟩, 0, 0⟩, ⟨⟨"b", true, 7⟩, 0, 0⟩, ⟨⟨"c", false, 15⟩, 1, 1⟩] }
      rfl).2.2 _ rfl⟩,
   ((order_and_completeness (memEnv (fun _ => none) 3) (ZipFile.ofList []) [] 4).2
      (by decide)).1⟩


theorem logOf_no_missing : ∀ (cs : List Copied) (i j : Int),
    Event.getEntryByIndex j none ∉ logOf i cs := by
  intro cs
  induction cs with
  | nil => intro i j h; simp [logOf] at h
  | cons c cs ih =>
    intro i j h
    simp only [logOf, List.mem_cons] at h
    rcases h with h | h | h
    · simp at h
    · cases h
    · exact ih _ _ h

/-- C13 (missing entry is fatal): when the first `k` iterations of the pass succeed and
`getEntryByIndex(k)` yields no entry for an index `k < numEntries`, `copyAndAlign`
returns 1 with that retrieval as its last call: the entries at `0..k-1` were copied,
nothing is handed to `add` for index `k` or later, and no later index is retrieved.
In any run that returns, a retrieval that yields no entry is the last call of the run
and the return value is 1. -/
theorem missing_entry_is_fatal {σ : Type} (env : Env σ) (pZin : ZipFile) (pZout : σ)
    (alignment : Int) :
    (∀ (k : Nat) (sk : CopyState σ), (k : Int) < pZin.numEntries →
      copyLoop env pZin alignment k (copyInit pZout) = .ok (0, sk) →
      pZin.getEntryByIndex k = none →
      copyAndAlign env pZin pZout alignment
        = .ok (1, { sk with log := sk.log ++ [Event.getEntryByIndex k none] }) ∧
      sk.log = logOf 0 sk.copied ∧ sk.copied.length = k ∧
      (addedEntries (sk.log ++ [Event.getEntryByIndex k none])).length = k ∧
      ∀ (j : Int) (r : Option ZipEntry),
        Event.getEntryByIndex j r ∈ sk.log ++ [Event.getEntryByIndex k none] →
          0 ≤ j ∧ j ≤ k) ∧
    (∀ (ret : Int) (s : CopyState σ) (i : Int),
      copyAndAlign env pZin pZout alignment = .ok (ret, s) →
      Event.getEntryByIndex i none ∈ s.log →
      ret = 1 ∧ s.log.getLast? = some (Event.getEntryByIndex i none)) := by
  refine ⟨?_, ?_⟩
  · intro k sk hk hfirst hget
    obtain ⟨cs, hcs, hcop, _, hrest⟩ := copyLoop_run env pZin alignment _ _ _ _ hfirst
    simp only [copyInit, List.nil_append, zero_add] at hcs hcop hrest
    rcases hrest with ⟨_, hlen, hi, hlog⟩ | ⟨h1, _⟩
    swap
    · exact absurd h1 (by decide)
    rw [← hcop] at hcs hlen hlog
    have hgeti : pZin.getEntryByIndex sk.i = none := by rw [hi]; exact hget
    have hn : pZin.numEntries.toNat = k + ((pZin.numEntries.toNat - k - 1) + 1) := by omega
    refine ⟨?_, hlog, hlen, ?_, ?_⟩
    · unfold copyAndAlign
      rw [hn, copyLoop_split env pZin alignment _ k _ _ hfirst, copyLoop,
        copyBody_none env pZin alignment sk hgeti]
      simp only [hi]
    · rw [addedEntries_append, hlog, addedEntries_logOf]
      simp [addedEntries, hlen]
    · intro j r hmem
      rw [List.mem_append] at hmem
      rcases hmem with hmem | hmem
      · rw [hlog] at hmem
        have := logOf_getEntry_mem _ _ _ _ hmem
        omega
      · simp only [List.mem_singleton, Event.getEntryByIndex.injEq] at hmem
        omega
  · intro ret s i hrun hmem
    obtain ⟨cs, _, _, _, hrest⟩ := copyLoop_run env pZin alignment _ _ _ _ hrun
    simp only [copyInit, List.nil_append, zero_add] at hrest
    rcases hrest with ⟨_, _, _, hlog⟩ | ⟨h1, _, tail, htail, hlog⟩
    · rw [hlog] at hmem
      exact absurd hmem (logOf_no_missing _ _ _)
    · rw [hlog, List.mem_append] at hmem
      rcases hmem with hmem | hmem
      · exact absurd hmem (logOf_no_missing _ _ _)
      · rcases htail with ⟨_, rfl⟩ | ⟨e, p, st, _, _, _, rfl⟩
        · simp only [List.mem_singleton] at hmem
          rw [hlog, hmem]
          exact ⟨h1, by simp⟩
        · simp at hmem

/-- Witness for C13: a source that announces three entries but yields none at index 1
makes the pass return 1 right after that retrieval; only the entry at index 0 was
handed to `add`. -/
theorem missing_entry_is_fatal_witness :
    ∃ s, copyAndAlign (memEnv (fun _ => none) 3)
        ⟨3, fun i => if i = 0 then some ⟨"a", false, 0⟩ else
          if i = 2 then some ⟨"c", false, 15⟩ else none⟩ [] 4 = .ok (1, s) ∧
      s.log = [Event.getEntryByIndex 0 (some ⟨"a", false, 0⟩), Event.add ⟨"a", false, 0⟩ 0 0,
        Event.getEntryByIndex 1 none] :=
  ⟨_, ((missing_entry_is_fatal (memEnv (fun _ => none) 3)
      ⟨3, fun i => if i = 0 then some ⟨"a", false, 0⟩ else
        if i = 2 then some ⟨"c", false, 15⟩ else none⟩ [] 4).1 1
      { i := 1, bias := 0, zout := [(⟨"a", false, 0⟩, 0)],
        log := [Event.getEntryByIndex 0 (some ⟨"a", false, 0⟩), Event.add ⟨"a", false, 0⟩ 0 0],
        copied := [⟨⟨"a", false, 0⟩, 0, 0⟩] }
      (by decide) rfl rfl).1, rfl⟩


/-! ## Degenerate and minimal padding -/

theorem entryPadding_one (b : Int) (e : ZipEntry) (p : Int)
    (h : entryPadding 1 b e = .ok p) : p = 0 := by
  cases hc : e.isCompressed with
  | true =>
    rw [entryPadding_compressed 1 b e hc] at h
    exact (Except.ok.inj h).symm
  | false =>
    rw [entryPadding_stored 1 b e (by decide) hc, Int.tmod_one] at h
    exact (Except.ok.inj h).symm

theorem CopiedFrom_one (pZin : ZipFile) :
    ∀ (cs : List Copied) (i : Int), CopiedFrom pZin 1 i 0 cs →
      ∀ c ∈ cs, c.padding = 0 ∧ c.bias = 0 := by
  intro cs
  induction cs with
  | nil => intro i _ c hc; simp at hc
  | cons c0 cs ih =>
    intro i h c hc
    obtain ⟨_, hp, hb, hrest⟩ := h
    have hp0 := entryPadding_one 0 c0.pEntry c0.padding hp
    have hb0 : c0.bias = 0 := by rw [hb, hp0, addInt_zero]
    rw [hb0] at hrest
    rcases List.mem_cons.mp hc with rfl | hc
    · exact ⟨hp0, hb0⟩
    · exact ih _ hrest c hc

/-- C14 (alignment 1 is degenerate): with alignment 1 the copier pass returns, every
padding it hands to `add` is 0 and its final bias is 0, and `verify` returns 0 for
every archive that opens with an entry list. -/
theorem alignment_one_degenerate {σ : Type} (env : Env σ) (pZin : ZipFile) (pZout : σ) :
    (∃ ret s, copyAndAlign env pZin pZout 1 = .ok (ret, s) ∧
      (∀ e p st, Event.add e p st ∈ s.log → p = 0) ∧
      (∀ c ∈ s.copied, c.padding = 0) ∧ s.bias = 0) ∧
    (∀ {τ : Type} (env2 : Env τ) (fileName : String) (verbose : Bool) (es : List ZipEntry),
      env2.openRead fileName [.kOpenReadOnly] = (NO_ERROR, ZipFile.ofList es) →
      ∃ out, verify env2 fileName 1 verbose = .ok (0, out)) := by
  refine ⟨?_, ?_⟩
  · obtain ⟨ret, s, hrun⟩ := copyLoop_returns env pZin 1 (by decide)
      pZin.numEntries.toNat (copyInit pZout)
    obtain ⟨cs, hcs, hcop, hbias, hrest⟩ := copyLoop_run env pZin 1 _ _ _ _ hrun
    simp only [copyInit, List.nil_append, zero_add] at hcs hcop hbias hrest
    have hone := CopiedFrom_one pZin cs 0 hcs
    have hz : ∀ c ∈ cs, c.padding = 0 := fun c hc => (hone c hc).1
    have hb0 : s.bias = 0 := by
      rw [hbias]
      exact biasAfter_of_zero cs (fun c hc => (hone c hc).2)
    refine ⟨ret, s, hrun, ?_, by rw [hcop]; exact hz, hb0⟩
    intro e p st hmem
    have hin : ∀ i, Event.add e p st ∈ logOf i cs → p = 0 := by
      intro i h
      obtain ⟨c, hc, _, hp, _⟩ := logOf_add_mem cs i e p st h
      rw [← hp]
      exact hz c hc
    rcases hrest with ⟨_, _, _, hlog⟩ | ⟨_, _, tail, htail, hlog⟩
    · rw [hlog] at hmem
      exact hin 0 hmem
    · rw [hlog, List.mem_append] at hmem
      rcases hmem with hmem | hmem
      · exact hin 0 hmem
      · rcases htail with ⟨_, rfl⟩ | ⟨e1, p1, st1, _, hp1, _, rfl⟩
        · simp at hmem
        · simp only [List.mem_cons, List.mem_singleton, Event.add.injEq] at hmem
          rcases hmem with hmem | hmem | hmem
          · cases hmem
          · obtain ⟨_, rfl, _⟩ := hmem
            exact entryPadding_one _ e1 p hp1
          · cases hmem
  · intro τ env2 fileName verbose es hopen
    have hany : es.any (misaligned 1) = false := by
      simp [misaligned]
    rw [verify_ofList env2 fileName 1 verbose es (by decide) hopen, hany]
    exact ⟨_, rfl⟩

/-- Witness for C14: with alignment 1 the stored entries at offsets 0, 7 and 15 are
copied without padding and the archive verifies. -/
theorem alignment_one_degenerate_witness :
    (∃ s, copyAndAlign (memEnv (fun _ => none) 3)
        (ZipFile.ofList [⟨"a", false, 0⟩, ⟨"b", false, 7⟩, ⟨"c", false, 15⟩]) [] 1 = .ok (0, s) ∧
      s.copied.map (fun c => c.padding) = [0, 0, 0] ∧ s.bias = 0) ∧
    ∃ out, verify
      (memEnv (fun _ => some [⟨"a", false, 0⟩, ⟨"b", false, 7⟩, ⟨"c", false, 15⟩]) 0)
      "in.zip" 1 false = .ok (0, out) :=
  ⟨⟨_, rfl, rfl, rfl⟩,
   (alignment_one_degenerate (memEnv (fun _ => none) 3)
      (ZipFile.ofList [⟨"a", false, 0⟩, ⟨"b", false, 7⟩, ⟨"c", false, 15⟩]) []).2
      (memEnv (fun _ => some [⟨"a", false, 0⟩, ⟨"b", false, 7⟩, ⟨"c", false, 15⟩]) 0)
      "in.zip" false [⟨"a", false, 0⟩, ⟨"b", false, 7⟩, ⟨"c", false, 15⟩] rfl⟩

/-- C15 (minimal padding): for a non-negative projected offset and a positive
alignment, the padding computed by lines 59-60 is the least non-negative `p` with
`(offset + p) mod alignment = 0`; it is 0 exactly when `offset mod alignment = 0`,
and it is never equal to the alignment. -/
theorem minimal_padding (offset alignment : Int) (hoff : 0 ≤ offset) (ha : 0 < alignment) :
    ∃ p, padding alignment offset = .ok p ∧ 0 ≤ p ∧ (offset + p) % alignment = 0 ∧
      (∀ q, 0 ≤ q → (offset + q) % alignment = 0 → p ≤ q) ∧
      (p = 0 ↔ offset % alignment = 0) ∧ p ≠ alignment ∧
      p = (alignment - offset % alignment) % alignment := by
  have hb := padValue_bounds alignment offset ha
  have hd := padValue_dvd alignment offset
  have hmin : ∀ q, 0 ≤ q → (offset + q) % alignment = 0 →
      (alignment - offset.tmod alignment).tmod alignment ≤ q := by
    intro q hq hqa
    by_contra hlt
    push_neg at hlt
    have hdq : alignment ∣ offset + q := Int.dvd_of_emod_eq_zero hqa
    have hdiff : alignment ∣ (alignment - offset.tmod alignment).tmod alignment - q := by
      have := Dvd.dvd.sub hd hdq
      simpa using this
    have := Int.le_of_dvd (by omega) hdiff
    omega
  refine ⟨_, padding_ok alignment offset (ne_of_gt ha), hb.1, Int.emod_eq_zero_of_dvd hd,
    hmin, ⟨fun h0 => ?_, fun h0 => ?_⟩, by omega, padValue_eq_emod alignment offset ha hoff⟩
  · rw [h0, add_zero] at hd
    exact Int.emod_eq_zero_of_dvd hd
  · have := hmin 0 (le_refl 0) (by rwa [add_zero])
    omega

/-- Witness for C15: offset 10 with alignment 4 needs padding 2, and the aligned offset
8 needs padding 0, not 4. -/
theorem minimal_padding_witness :
    (∃ p, padding 4 10 = .ok p ∧ 0 ≤ p ∧ (10 + p) % 4 = 0 ∧
      (∀ q, 0 ≤ q → (10 + q) % 4 = 0 → p ≤ q) ∧ (p = 0 ↔ (10 : Int) % 4 = 0) ∧ p ≠ 4 ∧
      p = (4 - 10 % 4) % 4) ∧
    padding 4 10 = .ok 2 ∧ padding 4 8 = .ok 0 :=
  ⟨minimal_padding 10 4 (by decide) (by decide), rfl, rfl⟩


/-! ## Verifier and copier compared -/

theorem any_misaligned_of_keys (alignment : Int) (es1 es2 : List ZipEntry)
    (h : ∀ k, k ∈ es1.map (fun e => (e.isCompressed, e.fileOffset)) →
      k ∈ es2.map (fun e => (e.isCompressed, e.fileOffset)))
    (h1 : es1.any (misaligned alignment) = true) : es2.any (misaligned alignment) = true := by
  rw [List.any_eq_true] at h1 ⊢
  obtain ⟨e, he, hm⟩ := h1
  have hk := h (e.isCompressed, e.fileOffset) (List.mem_map.mpr ⟨e, he, rfl⟩)
  obtain ⟨e2, he2, hkey⟩ := List.mem_map.mp hk
  simp only [Prod.mk.injEq] at hkey
  refine ⟨e2, he2, ?_⟩
  simpa [misaligned, hkey.1, hkey.2] using hm

/-- C16 (verifier independence): for a positive alignment, two runs of `verify` on
archives whose entry lists carry the same `(isCompressed, fileOffset)` values up to
a permutation return the same value, whatever the collaborators, the file names,
the entry names and the verbose flag; in particular two runs on the same list agree
and a permuted list gives the result of the original list. -/
theorem verifier_independence {σ τ : Type} (env1 : Env σ) (env2 : Env τ)
    (name1 name2 : String) (alignment : Int) (v1 v2 : Bool) (es1 es2 : List ZipEntry)
    (ha : 0 < alignment)
    (h1 : env1.openRead name1 [.kOpenReadOnly] = (NO_ERROR, ZipFile.ofList es1))
    (h2 : env2.openRead name2 [.kOpenReadOnly] = (NO_ERROR, ZipFile.ofList es2))
    (hperm : List.Perm (es1.map (fun e => (e.isCompressed, e.fileOffset)))
      (es2.map (fun e => (e.isCompressed, e.fileOffset)))) :
    ∃ ret out1 out2, verify env1 name1 alignment v1 = .ok (ret, out1) ∧
      verify env2 name2 alignment v2 = .ok (ret, out2) := by
  have hany : es1.any (misaligned alignment) = es2.any (misaligned alignment) := by
    have h12 := any_misaligned_of_keys alignment es1 es2 (fun k hk => hperm.mem_iff.mp hk)
    have h21 := any_misaligned_of_keys alignment es2 es1 (fun k hk => hperm.mem_iff.mpr hk)
    cases hb1 : es1.any (misaligned alignment) with
    | true => exact (h12 hb1).symm
    | false =>
      cases hb2 : es2.any (misaligned alignment) with
      | true => rw [h21 hb2] at hb1; cases hb1
      | false => rfl
  rw [verify_ofList env1 name1 alignment v1 es1 (ne_of_gt ha) h1,
    verify_ofList env2 name2 alignment v2 es2 (ne_of_gt ha) h2, hany]
  exact ⟨_, _, _, rfl, rfl⟩

/-- Witness for C16: an archive and a reordered copy of it with other entry names get
the same verdict (not aligned) from a quiet and from a verbose run. -/
theorem verifier_independence_witness :
    ∃ ret out1 out2,
      verify (memEnv (fun _ => some [⟨"a", false, 5⟩, ⟨"b", true, 7⟩, ⟨"c", false, 8⟩]) 0)
        "x.zip" 4 false = .ok (ret, out1) ∧
      verify (memEnv (fun _ => some [⟨"r", false, 8⟩, ⟨"s", false, 5⟩, ⟨"t", true, 7⟩]) 0)
        "y.zip" 4 true = .ok (ret, out2) :=
  verifier_independence
    (memEnv (fun _ => some [⟨"a", false, 5⟩, ⟨"b", true, 7⟩, ⟨"c", false, 8⟩]) 0)
    (memEnv (fun _ => some [⟨"r", false, 8⟩, ⟨"s", false, 5⟩, ⟨"t", true, 7⟩]) 0)
    "x.zip" "y.zip" 4 false true
    [⟨"a", false, 5⟩, ⟨"b", true, 7⟩, ⟨"c", false, 8⟩]
    [⟨"r", false, 8⟩, ⟨"s", false, 5⟩, ⟨"t", true, 7⟩]
    (by decide) rfl rfl (by decide)


theorem biasAfter_ge (pZin : ZipFile) (alignment : Int) (ha : 0 < alignment) :
    ∀ (cs : List Copied) (i b : Int), CopiedExact pZin alignment i b cs → b ≤ biasAfter b cs := by
  intro cs
  induction cs with
  | nil => intro i b _; exact le_refl b
  | cons c cs ih =>
    intro i b h
    obtain ⟨_, hp, hb, hrest⟩ := h
    have h0 := (entryPaddingExact_spec alignment b c.pEntry c.padding ha hp).1
    have := ih _ _ hrest
    simp only [biasAfter]
    omega

theorem CopiedExact_no_padding (pZin : ZipFile) (alignment : Int) (ha : 0 < alignment) :
    ∀ (cs : List Copied) (i b : Int), CopiedExact pZin alignment i b cs → biasAfter b cs = b →
      ∀ c ∈ cs, c.padding = 0 ∧ c.bias = b := by
  intro cs
  induction cs with
  | nil => intro i b _ _ c hc; simp at hc
  | cons c0 cs ih =>
    intro i b h hb
    obtain ⟨_, hp, hb0, hrest⟩ := h
    have h0 := (entryPaddingExact_spec alignment b c0.pEntry c0.padding ha hp).1
    have hge := biasAfter_ge pZin alignment ha cs _ _ hrest
    simp only [biasAfter] at hb
    have hp0 : c0.padding = 0 := by omega
    have hc0 : c0.bias = b := by omega
    intro c hc
    rcases List.mem_cons.mp hc with rfl | hmem
    · exact ⟨hp0, hc0⟩
    · have := ih _ _ hrest (by rw [hb, hc0]) c hmem
      rw [hc0] at this
      exact this

/-- Counterexample for C17: with alignment 2147483647 the stored entries at offsets 1, 2
and 0 (non-negative, every copy succeeding) get paddings 2147483646, 2147483646 and
4; the `int` bias goes 2147483646, wraps around to -4 and ends at 0, although
`verify` on the source list returns 1 (the entry at offset 1 is misaligned). -/
theorem copier_verifier_agree_counterexample :
    (0 : Int) < 2147483647 ∧
    (∀ e ∈ [(⟨"a", false, 1⟩ : ZipEntry), ⟨"b", false, 2⟩, ⟨"c", false, 0⟩],
      0 ≤ e.fileOffset) ∧
    ∃ s, copyAndAlign (memEnv (fun _ => none) 3)
        (ZipFile.ofList [⟨"a", false, 1⟩, ⟨"b", false, 2⟩, ⟨"c", false, 0⟩]) []
        2147483647 = .ok (0, s) ∧
      s.copied.map (fun c => c.padding) = [2147483646, 2147483646, 4] ∧
      s.copied.map (fun c => c.bias) = [2147483646, -4, 0] ∧
      s.bias = 0 ∧
      verify (memEnv (fun _ => some [⟨"a", false, 1⟩, ⟨"b", false, 2⟩, ⟨"c", false, 0⟩]) 0)
        "in.zip" 2147483647 false = .ok (1, []) ∧
      ¬ (s.bias = 0 ↔ (1 : Int) = 0) :=
  ⟨by decide, by decide,
   { i := 3, bias := 0,
     zout := [(⟨"a", false, 1⟩, 2147483646), (⟨"b", false, 2⟩, 2147483646),
       (⟨"c", false, 0⟩, 4)],
     log := logOf 0 [⟨⟨"a", false, 1⟩, 2147483646, 2147483646⟩,
       ⟨⟨"b", false, 2⟩, 2147483646, -4⟩, ⟨⟨"c", false, 0⟩, 4, 0⟩],
     copied := [⟨⟨"a", false, 1⟩, 2147483646, 2147483646⟩,
       ⟨⟨"b", false, 2⟩, 2147483646, -4⟩, ⟨⟨"c", false, 0⟩, 4, 0⟩] },
   rfl, rfl, rfl, rfl, rfl, by decide⟩

/-- C17 (copier and verifier agree on "already aligned", amended): for a positive
alignment and an entry list with non-negative offsets on which the copier pass
succeeds without wrap-around (`NoOverflow`: the alignment is an `int`, the paddings
sum to at most `INT_MAX`, and the projected offset of every non-compressed entry is
at most `LONG_MAX`), `verify` on the source list returns, and the copier's final
bias is 0 if and only if `verify` returns 0 (fully aligned). -/
theorem copier_verifier_agree {σ τ : Type} (env : Env σ) (es : List ZipEntry) (pZout : σ)
    (alignment : Int) (s : CopyState σ) (env2 : Env τ) (fileName : String) (verbose : Bool)
    (ha : 0 < alignment) (hoff : ∀ e ∈ es, 0 ≤ e.fileOffset)
    (hfit : NoOverflow alignment s.copied)
    (hrun : copyAndAlign env (ZipFile.ofList es) pZout alignment = .ok (0, s))
    (hopen : env2.openRead fileName [.kOpenReadOnly] = (NO_ERROR, ZipFile.ofList es)) :
    ∃ ret out, verify env2 fileName alignment verbose = .ok (ret, out) ∧
      (s.bias = 0 ↔ ret = 0) := by
  obtain ⟨hcs, hlen, hbias, _⟩ := copyAndAlign_success env _ pZout alignment s hrun
  rw [ofList_numEntries] at hlen
  have hes := copiedFrom_ofList alignment es s.copied 0 hcs hlen
  have hex := copiedFrom_ofList_exact alignment es s.copied ha hoff hfit hcs
  refine ⟨_, _, verify_ofList env2 fileName alignment verbose es (ne_of_gt ha) hopen, ?_⟩
  have hiff : s.bias = 0 ↔ es.any (misaligned alignment) = false := by
    rw [any_misaligned_iff]
    constructor
    · intro hb e he hc
      rw [← hes] at he
      obtain ⟨c, hmem, rfl⟩ := List.mem_map.mp he
      have hz := CopiedExact_no_padding _ alignment ha s.copied 0 0 hex
        (by rw [← hbias, hb]) c hmem
      have hd := (CopiedExact_records _ alignment ha s.copied 0 0 hex c hmem).2.2.2 hc
      rwa [hz.2, add_zero] at hd
    · intro hal
      have hal2 : ∀ c ∈ s.copied, c.pEntry.isCompressed = false →
          alignment ∣ c.pEntry.fileOffset := by
        intro c hc hcomp
        exact hal _ (by rw [← hes]; exact List.mem_map.mpr ⟨c, hc, rfl⟩) hcomp
      have hzero := CopiedFrom_aligned _ alignment ha s.copied 0 hcs hal2
      rw [hbias]
      exact biasAfter_of_zero _ (fun c hc => (hzero c hc).2)
  rw [hiff]
  cases es.any (misaligned alignment) <;> simp

/-- Witness for C17: for stored entries at offsets 0, 7, 15 and alignment 4 the final
bias is 1 and `verify` on the source returns 1; for offsets 0, 8, 16 the bias is 0
and `verify` returns 0. -/
theorem copier_verifier_agree_witness :
    (∃ ret out, verify
        (memEnv (fun _ => some [⟨"a", false, 0⟩, ⟨"b", false, 7⟩, ⟨"c", false, 15⟩]) 0)
        "in.zip" 4 false = .ok (ret, out) ∧ ((1 : Int) = 0 ↔ ret = 0)) ∧
    (∃ ret out, verify
        (memEnv (fun _ => some [⟨"a", false, 0⟩, ⟨"b", false, 8⟩, ⟨"c", false, 16⟩]) 0)
        "in.zip" 4 false = .ok (ret, out) ∧ ((0 : Int) = 0 ↔ ret = 0)) :=
  ⟨copier_verifier_agree (memEnv (fun _ => none) 3)
      [⟨"a", false, 0⟩, ⟨"b", false, 7⟩, ⟨"c", false, 15⟩] [] 4
      { i := 3, bias := 1,
        zout := [(⟨"a", false, 0⟩, 0), (⟨"b", false, 7⟩, 1), (⟨"c", false, 15⟩, 0)],
        log := logOf 0 [⟨⟨"a", false, 0⟩, 0, 0⟩, ⟨⟨"b", false, 7⟩, 1, 1⟩, ⟨⟨"c", false, 15⟩, 0, 1⟩],
        copied := [⟨⟨"a", false, 0⟩, 0, 0⟩, ⟨⟨"b", false, 7⟩, 1, 1⟩, ⟨⟨"c", false, 15⟩, 0, 1⟩] }
      (memEnv (fun _ => some [⟨"a", false, 0⟩, ⟨"b", false, 7⟩, ⟨"c", false, 15⟩]) 0)
      "in.zip" false (by decide) (by decide) ⟨by decide, by decide, by decide⟩ rfl rfl,
   copier_verifier_agree (memEnv (fun _ => none) 3)
      [⟨"a", false, 0⟩, ⟨"b", false, 8⟩, ⟨"c", false, 16⟩] [] 4
      { i := 3, bias := 0,
        zout := [(⟨"a", false, 0⟩, 0), (⟨"b", false, 8⟩, 0), (⟨"c", false, 16⟩, 0)],
        log := logOf 0 [⟨⟨"a", false, 0⟩, 0, 0⟩, ⟨⟨"b", false, 8⟩, 0, 0⟩, ⟨⟨"c", false, 16⟩, 0, 0⟩],
        copied := [⟨⟨"a", false, 0⟩, 0, 0⟩, ⟨⟨"b", false, 8⟩, 0, 0⟩, ⟨⟨"c", false, 16⟩, 0, 0⟩] }
      (memEnv (fun _ => some [⟨"a", false, 0⟩, ⟨"b", false, 8⟩, ⟨"c", false, 16⟩]) 0)
      "in.zip" false (by decide) (by decide) ⟨by decide, by decide, by decide⟩ rfl rfl⟩

theorem CopiedFrom_le (pZin : ZipFile) (alignment : Int) (ha : 0 < alignment) :
    ∀ (cs : List Copied) (i b : Int), CopiedFrom pZin alignment i b cs →
      biasAfter b cs
          ≤ b + (alignment - 1) * (cs.countP (fun c => !c.pEntry.isCompressed) : Int) ∧
        (cs.map (fun c => c.padding)).sum
          ≤ (alignment - 1) * (cs.countP (fun c => !c.pEntry.isCompressed) : Int) := by
  intro cs
  induction cs with
  | nil => intro i b _; simp [biasAfter]
  | cons c cs ih =>
    intro i b h
    obtain ⟨_, hp, hb, hrest⟩ := h
    obtain ⟨h1, h2, _⟩ := entryPadding_le alignment b c.pEntry c.padding ha hp
    obtain ⟨ih1, ih2⟩ := ih _ _ hrest
    rw [hb] at ih1
    simp only [biasAfter, List.map_cons, List.sum_cons, List.countP_cons]
    rw [hb]
    cases hcomp : c.pEntry.isCompressed with
    | true =>
      simp only [hcomp, if_true] at h1 h2
      simp only [Bool.not_true, Bool.false_eq_true, if_false, add_zero]
      omega
    | false =>
      simp only [hcomp, Bool.false_eq_true, if_false] at h1 h2
      simp only [Bool.not_false, if_true]
      push_cast
      rw [mul_add, mul_one]
      omega

/-- C18 (bound on inserted padding): for a positive alignment and a source entry list
with non-negative offsets, the copier pass returns, its final bias is at most
`alignment - 1` times the number of non-compressed entries copied, and so is the
sum of the paddings handed to `add`, the number of padding bytes by which the
output grows. -/
theorem padding_bound {σ : Type} (env : Env σ) (es : List ZipEntry) (pZout : σ)
    (alignment : Int) (ha : 0 < alignment) (_hoff : ∀ e ∈ es, 0 ≤ e.fileOffset) :
    ∃ ret s, copyAndAlign env (ZipFile.ofList es) pZout alignment = .ok (ret, s) ∧
      s.bias ≤ (alignment - 1) * (s.copied.countP (fun c => !c.pEntry.isCompressed) : Int) ∧
      (s.copied.map (fun c => c.padding)).sum
        ≤ (alignment - 1) * (s.copied.countP (fun c => !c.pEntry.isCompressed) : Int) := by
  obtain ⟨ret, s, hrun⟩ := copyLoop_returns env (ZipFile.ofList es) alignment (ne_of_gt ha)
    (ZipFile.ofList es).numEntries.toNat (copyInit pZout)
  obtain ⟨cs, hcs, hcop, hbias, _⟩ := copyLoop_run env _ alignment _ _ _ _ hrun
  simp only [copyInit, List.nil_append] at hcs hcop hbias
  rw [← hcop] at hcs hbias
  obtain ⟨h1, h2⟩ := CopiedFrom_le _ alignment ha s.copied 0 0 hcs
  rw [zero_add] at h1
  exact ⟨ret, s, hrun, by rw [hbias]; exact h1, h2⟩

/-- Witness for C18: two stored entries at offsets 1 and 6 and a compressed one, copied
with alignment 4, get paddings 3, 0 and 3: the final bias 6 reaches the bound
`(4 - 1) * 2`; with alignment 1000000000 and stored entries at offsets 100, 200 and
300 the bias wraps around to -1294967596, below the bound. -/
theorem padding_bound_witness :
    (∃ ret s, copyAndAlign (memEnv (fun _ => none) 3)
        (ZipFile.ofList [⟨"a", false, 1⟩, ⟨"b", true, 3⟩, ⟨"c", false, 6⟩]) [] 4 = .ok (ret, s) ∧
      s.bias ≤ (4 - 1) * (s.copied.countP (fun c => !c.pEntry.isCompressed) : Int) ∧
      (s.copied.map (fun c => c.padding)).sum
        ≤ (4 - 1) * (s.copied.countP (fun c => !c.pEntry.isCompressed) : Int)) ∧
    (∃ s, copyAndAlign (memEnv (fun _ => none) 3)
        (ZipFile.ofList [⟨"a", false, 1⟩, ⟨"b", true, 3⟩, ⟨"c", false, 6⟩]) [] 4 = .ok (0, s) ∧
      s.bias = 6 ∧ s.copied.map (fun c => c.padding) = [3, 0, 3]) ∧
    (∃ ret s, copyAndAlign (memEnv (fun _ => none) 3)
        (ZipFile.ofList [⟨"a", false, 100⟩, ⟨"b", false, 200⟩, ⟨"c", false, 300⟩]) []
        1000000000 = .ok (ret, s) ∧
      s.bias ≤ (1000000000 - 1) * (s.copied.countP (fun c => !c.pEntry.isCompressed) : Int) ∧
      (s.copied.map (fun c => c.padding)).sum
        ≤ (1000000000 - 1) * (s.copied.countP (fun c => !c.pEntry.isCompressed) : Int)) ∧
    (∃ s, copyAndAlign (memEnv (fun _ => none) 3)
        (ZipFile.ofList [⟨"a", false, 100⟩, ⟨"b", false, 200⟩, ⟨"c", false, 300⟩]) []
        1000000000 = .ok (0, s) ∧
      s.bias = -1294967596 ∧
      s.copied.map (fun c => c.padding) = [999999900, 999999900, 999999900]) :=
  ⟨padding_bound (memEnv (fun _ => none) 3)
      [⟨"a", false, 1⟩, ⟨"b", true, 3⟩, ⟨"c", false, 6⟩] [] 4 (by decide) (by decide),
   ⟨_, rfl, rfl, rfl⟩,
   padding_bound (memEnv (fun _ => none) 3)
      [⟨"a", false, 100⟩, ⟨"b", false, 200⟩, ⟨"c", false, 300⟩] [] 1000000000
      (by decide) (by decide),
   ⟨_, rfl, rfl, rfl⟩⟩


/-! ## Alignment zero -/

theorem entryPadding_zero_stored (b : Int) (e : ZipEntry) (hc : e.isCompressed = false) :
    entryPadding 0 b e = .error Fault.divisionByZero := by
  simp [entryPadding, hc, padding, cRem]

theorem entryPadding_zero_ok (a b : Int) (e : ZipEntry) (p : Int)
    (h : entryPadding 0 b e = .ok p) : entryPadding a b e = .ok p := by
  cases hc : e.isCompressed with
  | true =>
    simp only [entryPadding, hc, if_true] at h ⊢
    exact h
  | false =>
    rw [entryPadding_zero_stored b e hc] at h
    cases h

theorem copyLoop_zero_same {σ : Type} (env : Env σ) (pZin : ZipFile) (a : Int) :
    ∀ (n : Nat) (s : CopyState σ) (r : Int × CopyState σ),
      copyLoop env pZin 0 n s = .ok r → copyLoop env pZin a n s = .ok r := by
  intro n
  induction n with
  | zero => intro s r h; exact h
  | succ n ih =>
    intro s r h
    rw [copyLoop] at h ⊢
    cases hget : pZin.getEntryByIndex s.i with
    | none =>
      rw [copyBody_none env pZin _ s hget] at h ⊢
      exact h
    | some e =>
      cases hp : entryPadding 0 s.bias e with
      | error f =>
        rw [copyBody_fault env pZin 0 s e f hget hp] at h
        cases h
      | ok p =>
        rw [copyBody_some env pZin 0 s e p hget hp] at h
        rw [copyBody_some env pZin a s e p hget (entryPadding_zero_ok a s.bias e p hp)]
        by_cases hst : (env.add s.zout pZin e p).1 = NO_ERROR
        · simp only [hst, ne_eq, not_true_eq_false, if_false] at h ⊢
          exact ih _ _ h
        · simp only [ne_eq, hst, not_false_eq_true, if_true] at h ⊢
          exact h

theorem verifyBody_zero_same (zipFile : ZipFile) (a : Int) (verbose : Bool) (s r : VerifyState)
    (h : verifyBody zipFile 0 verbose s = .ok r) : verifyBody zipFile a verbose s = .ok r := by
  unfold verifyBody at h ⊢
  cases hget : zipFile.getEntryByIndex s.i with
  | none => simp [hget] at h
  | some e =>
    simp only [hget] at h ⊢
    cases hc : e.isCompressed with
    | true =>
      simp only [hc, if_true] at h ⊢
      exact h
    | false =>
      simp [hc, cRem] at h

theorem verifyLoop_zero_same (zipFile : ZipFile) (a : Int) (verbose : Bool) :
    ∀ (n : Nat) (s r : VerifyState),
      verifyLoop zipFile 0 verbose n s = .ok r → verifyLoop zipFile a verbose n s = .ok r := by
  intro n
  induction n with
  | zero => intro s r h; exact h
  | succ n ih =>
    intro s r h
    rw [verifyLoop] at h ⊢
    cases hb : verifyBody zipFile 0 verbose s with
    | error f =>
      rw [hb] at h
      cases h
    | ok s1 =>
      rw [hb] at h
      rw [verifyBody_zero_same zipFile a verbose s s1 hb]
      exact ih _ _ h

theorem verifyLoop_no_division (zipFile : ZipFile) (alignment : Int) (verbose : Bool)
    (ha : alignment ≠ 0) :
    ∀ (n : Nat) (s : VerifyState),
      verifyLoop zipFile alignment verbose n s ≠ .error Fault.divisionByZero := by
  intro n
  induction n with
  | zero => intro s h; simp [verifyLoop] at h
  | succ n ih =>
    intro s h
    rw [verifyLoop] at h
    cases hb : verifyBody zipFile alignment verbose s with
    | error f =>
      rw [hb] at h
      simp only [Except.error.injEq] at h
      subst h
      unfold verifyBody at hb
      cases hget : zipFile.getEntryByIndex s.i with
      | none => simp [hget] at hb
      | some e =>
        simp only [hget, cRem_ok _ _ ha] at hb
        split at hb
        · cases hb
        · split at hb <;> cases hb
    | ok s1 =>
      rw [hb] at h
      exact ih _ h

theorem process_zero_same {σ : Type} (env : Env σ) (inName outName : String) (a : Int)
    (force : Bool) (r : Int × List Event)
    (h : process env inName outName 0 force = .ok r) :
    process env inName outName a force = .ok r := by
  unfold process at h ⊢
  by_cases h1 : inName = outName
  · simpa only [h1, if_true] using h
  · simp only [h1, if_false] at h ⊢
    by_cases h2 : (!force && decide (env.access outName = 0)) = true
    · simpa only [h2, if_true] using h
    · simp only [h2, Bool.false_eq_true, if_false] at h ⊢
      by_cases h3 : (env.openRead inName [.kOpenReadOnly]).1 = NO_ERROR
      · simp only [h3, ne_eq, not_true_eq_false, if_false] at h ⊢
        by_cases h4 : (env.openWrite outName
            [.kOpenReadWrite, .kOpenCreate, .kOpenTruncate]).1 = NO_ERROR
        · simp only [h4, not_true_eq_false, if_false] at h ⊢
          cases hrun : copyAndAlign env (env.openRead inName [.kOpenReadOnly]).2
              (env.openWrite outName [.kOpenReadWrite, .kOpenCreate, .kOpenTruncate]).2 0 with
          | error f =>
            rw [hrun] at h
            cases h
          | ok res =>
            rw [hrun] at h
            have := copyLoop_zero_same env _ a _ _ _ hrun
            unfold copyAndAlign
            rw [this]
            exact h
        · simpa only [h4, not_false_eq_true, if_true] using h
      · simpa only [ne_eq, h3, not_false_eq_true, if_true] using h

/-- C19 (alignment is not validated): neither entry point treats alignment 0 specially:
whenever a call of `zipalign` or `zipalign_is_aligned` with alignment 0 returns, the
same call returns the same result with any other alignment.  With alignment 0 the
copier pass ends in a division by zero exactly when it reaches a non-compressed
entry (the iterations before it succeed and the entry at that index exists and is
not compressed), and `verify` on an archive that opens with an entry list does so
exactly when the list has a non-compressed entry.  With a positive alignment the
copier pass always returns and `verify` never divides by zero. -/
theorem alignment_not_validated {σ : Type} (env : Env σ) :
    (∀ (in_filename out_filename : Option String) (force a : Int) (r : Int × List Event),
      zipalign env in_filename out_filename 0 force = .ok r →
      zipalign env in_filename out_filename a force = .ok r) ∧
    (∀ (filename : Option String) (a r : Int),
      zipalign_is_aligned env filename 0 = .ok r →
      zipalign_is_aligned env filename a = .ok r) ∧
    (∀ (pZin : ZipFile) (pZout : σ),
      copyAndAlign env pZin pZout 0 = .error Fault.divisionByZero ↔
        ∃ (k : Nat) (sk : CopyState σ) (e : ZipEntry), (k : Int) < pZin.numEntries ∧
          copyLoop env pZin 0 k (copyInit pZout) = .ok (0, sk) ∧
          pZin.getEntryByIndex k = some e ∧ e.isCompressed = false) ∧
    (∀ (fileName : String) (verbose : Bool) (es : List ZipEntry),
      env.openRead fileName [.kOpenReadOnly] = (NO_ERROR, ZipFile.ofList es) →
      (verify env fileName 0 verbose = .error Fault.divisionByZero ↔
        ∃ e ∈ es, e.isCompressed = false)) ∧
    (∀ (a : Int) (pZin : ZipFile) (pZout : σ), 0 < a →
      ∃ ret s, copyAndAlign env pZin pZout a = .ok (ret, s)) ∧
    (∀ (a : Int) (fileName : String) (verbose : Bool), 0 < a →
      verify env fileName a verbose ≠ .error Fault.divisionByZero) := by
  refine ⟨?_, ?_, ?_, ?_, ?_, ?_⟩
  · intro i o force a r h
    cases i with
    | none => exact h
    | some inName =>
      cases o with
      | none => exact h
      | some outName =>
        simp only [zipalign] at h ⊢
        cases hp : process env inName outName 0 (decide (force ≠ 0)) with
        | error f =>
          rw [hp] at h
          cases h
        | ok pr =>
          rw [hp] at h
          rw [process_zero_same env inName outName a _ pr hp]
          exact h
  · intro filename a r h
    cases filename with
    | none => exact h
    | some name =>
      simp only [zipalign_is_aligned, verify, Bool.false_eq_true, if_false] at h ⊢
      by_cases hst : (env.openRead name [.kOpenReadOnly]).1 = NO_ERROR
      · simp only [hst, ne_eq, not_true_eq_false, if_false] at h ⊢
        cases hl : verifyLoop (env.openRead name [.kOpenReadOnly]).2 0 false
            (env.openRead name [.kOpenReadOnly]).2.numEntries.toNat
            { i := 0, foundBad := false, out := [] } with
        | error f =>
          rw [hl] at h
          cases h
        | ok s1 =>
          rw [hl] at h
          rw [verifyLoop_zero_same _ a false _ _ s1 hl]
          exact h
      · simp only [ne_eq, hst, not_false_eq_true, if_true] at h ⊢
        exact h
  · intro pZin pZout
    constructor
    · intro h
      obtain ⟨k, sk, e, hk, hrun, hget, hp⟩ := copyLoop_fault env pZin 0 _ _ _ h
      obtain ⟨cs, _, _, _, hrest⟩ := copyLoop_run env pZin 0 _ _ _ _ hrun
      simp only [copyInit, zero_add] at hrest
      rcases hrest with ⟨_, _, hi, _⟩ | ⟨h1, _⟩
      · refine ⟨k, sk, e, by omega, hrun, ?_, (entryPadding_fault 0 sk.bias e _ hp).2.1⟩
        rw [← hi]
        exact hget
      · exact absurd h1 (by decide)
    · rintro ⟨k, sk, e, hk, hrun, hget, hc⟩
      obtain ⟨cs, _, _, _, hrest⟩ := copyLoop_run env pZin 0 _ _ _ _ hrun
      simp only [copyInit, zero_add] at hrest
      rcases hrest with ⟨_, _, hi, _⟩ | ⟨h1, _⟩
      · have hn : pZin.numEntries.toNat = k + ((pZin.numEntries.toNat - k - 1) + 1) := by omega
        have hgeti : pZin.getEntryByIndex sk.i = some e := by rw [hi]; exact hget
        unfold copyAndAlign
        rw [hn, copyLoop_split env pZin 0 _ k _ _ hrun, copyLoop,
          copyBody_fault env pZin 0 sk e _ hgeti (entryPadding_zero_stored sk.bias e hc)]
      · exact absurd h1 (by decide)
  · intro fileName verbose es hopen
    have hl := verifyLoop_zero_list (ZipFile.ofList es) verbose es
      { i := 0, foundBad := false,
        out := if verbose then [Line.verifying fileName 0] else [] }
      (by intro j e hj; simpa [ofList_getEntryByIndex] using hj)
    rw [← hl]
    simp only [verify, hopen, ne_eq, not_true_eq_false, if_false, ofList_numEntries]
    cases verifyLoop (ZipFile.ofList es) 0 verbose es.length
        { i := 0, foundBad := false,
          out := if verbose then [Line.verifying fileName 0] else [] } with
    | error f => simp
    | ok s1 => simp
  · intro a pZin pZout ha
    exact copyLoop_returns env pZin a (ne_of_gt ha) _ _
  · intro a fileName verbose ha h
    simp only [verify] at h
    by_cases hst : (env.openRead fileName [.kOpenReadOnly]).1 = NO_ERROR
    · simp only [hst, ne_eq, not_true_eq_false, if_false] at h
      cases hl : verifyLoop (env.openRead fileName [.kOpenReadOnly]).2 a verbose
          (env.openRead fileName [.kOpenReadOnly]).2.numEntries.toNat
          { i := 0, foundBad := false,
            out := if verbose then [Line.verifying fileName a] else [] } with
      | error f =>
        rw [hl] at h
        simp only [Except.error.injEq] at h
        subst h
        exact verifyLoop_no_division _ a verbose (ne_of_gt ha) _ _ hl
      | ok s1 =>
        rw [hl] at h
        cases h
    · simp only [ne_eq, hst, not_false_eq_true, if_true] at h
      cases h

/-- Witness for C19: with alignment 0 an archive of one compressed entry is aligned
(result 1, as with alignment 4) and verified (result 1), while an archive with a
compressed entry followed by a stored one ends both passes in a division by zero. -/
theorem alignment_not_validated_witness :
    zipalign (memEnv (fun p => if p = "in.zip" then some [⟨"a", true, 10⟩] else none) 1)
      (some "in.zip") (some "out.zip") 0 0
      = .ok (1, [Event.access "out.zip" (-1), Event.zipOpen "in.zip" [.kOpenReadOnly] 0,
          Event.zipOpen "out.zip" [.kOpenReadWrite, .kOpenCreate, .kOpenTruncate] 0,
          Event.getEntryByIndex 0 (some ⟨"a", true, 10⟩), Event.add ⟨"a", true, 10⟩ 0 0]) ∧
    zipalign (memEnv (fun p => if p = "in.zip" then some [⟨"a", true, 10⟩] else none) 1)
      (some "in.zip") (some "out.zip") 4 0
      = .ok (1, [Event.access "out.zip" (-1), Event.zipOpen "in.zip" [.kOpenReadOnly] 0,
          Event.zipOpen "out.zip" [.kOpenReadWrite, .kOpenCreate, .kOpenTruncate] 0,
          Event.getEntryByIndex 0 (some ⟨"a", true, 10⟩), Event.add ⟨"a", true, 10⟩ 0 0]) ∧
    zipalign_is_aligned
      (memEnv (fun p => if p = "in.zip" then some [⟨"a", true, 10⟩] else none) 1)
      (some "in.zip") 0 = .ok 1 ∧
    zipalign_is_aligned
      (memEnv (fun p => if p = "in.zip" then some [⟨"a", true, 10⟩] else none) 1)
      (some "in.zip") 4 = .ok 1 ∧
    copyAndAlign (memEnv (fun _ => some [⟨"a", true, 10⟩, ⟨"b", false, 20⟩]) 2)
      (ZipFile.ofList [⟨"a", true, 10⟩, ⟨"b", false, 20⟩]) [] 0
      = .error Fault.divisionByZero ∧
    verify (memEnv (fun _ => some [⟨"a", true, 10⟩, ⟨"b", false, 20⟩]) 2) "in.zip" 0 false
      = .error Fault.divisionByZero :=
  ⟨rfl,
   (alignment_not_validated
      (memEnv (fun p => if p = "in.zip" then some [⟨"a", true, 10⟩] else none) 1)).1
      (some "in.zip") (some "out.zip") 0 4 _ rfl,
   rfl,
   (alignment_not_validated
      (memEnv (fun p => if p = "in.zip" then some [⟨"a", true, 10⟩] else none) 1)).2.1
      (some "in.zip") 4 1 rfl,
   ((alignment_not_validated
      (memEnv (fun _ => some [⟨"a", true, 10⟩, ⟨"b", false, 20⟩]) 2)).2.2.1
      (ZipFile.ofList [⟨"a", true, 10⟩, ⟨"b", false, 20⟩]) []).mpr
      ⟨1, { i := 1, bias := 0, zout := [(⟨"a", true, 10⟩, 0)],
            log := [Event.getEntryByIndex 0 (some ⟨"a", true, 10⟩),
              Event.add ⟨"a", true, 10⟩ 0 0],
            copied := [⟨⟨"a", true, 10⟩, 0, 0⟩] },
        ⟨"b", false, 20⟩, by decide, rfl, rfl, rfl⟩,
   ((alignment_not_validated
      (memEnv (fun _ => some [⟨"a", true, 10⟩, ⟨"b", false, 20⟩]) 2)).2.2.2.1
      "in.zip" false [⟨"a", true, 10⟩, ⟨"b", false, 20⟩] rfl).mpr
      ⟨⟨"b", false, 20⟩, by simp, rfl⟩⟩

/-! ## The remainder of a negative offset -/

theorem tmod_nonpos (n a : Int) (hn : n ≤ 0) : n.tmod a ≤ 0 := by
  cases n with
  | ofNat m =>
    have hm : (m : Int) ≤ 0 := hn
    have : m = 0 := by omega
    subst this
    simp
  | negSucc m =>
    cases a with
    | ofNat k =>
      have h1 : (Int.negSucc m).tmod (Int.ofNat k) = -((((m + 1) % k : Nat)) : Int) := rfl
      rw [h1]
      omega
    | negSucc k =>
      have h1 : (Int.negSucc m).tmod (Int.negSucc k)
          = -((((m + 1) % (k + 1) : Nat)) : Int) := rfl
      rw [h1]
      omega

/-- C20 (truncating remainder): with the C remainder, which takes the sign of the
dividend, and a positive alignment, the padding expression of lines 59-60 yields for
every `newOffset`, negative ones included, a value in `[0, alignment)` such that
`newOffset + padding` is divisible by the alignment; since the alignment is an `int`,
the value lies within the bounds of the `int` it is stored in (`intMax` is the largest
`int`); the intermediate difference lies strictly between 0 and twice the alignment. -/
theorem truncating_remainder (newOffset alignment intMax : Int) (ha : 0 < alignment)
    (hint : alignment ≤ intMax) :
    (newOffset ≤ 0 → newOffset.tmod alignment ≤ 0) ∧
    (0 ≤ newOffset → 0 ≤ newOffset.tmod alignment) ∧
    ∃ p, padding alignment newOffset = .ok p ∧
      p = (alignment - newOffset.tmod alignment).tmod alignment ∧
      0 ≤ p ∧ p < alignment ∧
      alignment ∣ newOffset + p ∧ (newOffset + p).tmod alignment = 0 ∧
      (newOffset + p) % alignment = 0 ∧
      -intMax - 1 ≤ p ∧ p ≤ intMax ∧
      0 < alignment - newOffset.tmod alignment ∧
      alignment - newOffset.tmod alignment < 2 * alignment := by
  have hb := padValue_bounds alignment newOffset ha
  have ht := tmod_bounds newOffset alignment ha
  have hd := padValue_dvd alignment newOffset
  refine ⟨tmod_nonpos newOffset alignment, fun h => Int.tmod_nonneg alignment h,
    _, padding_ok alignment newOffset (ne_of_gt ha), rfl, hb.1, hb.2, hd,
    (tmod_eq_zero_iff_dvd _ _).mpr hd, Int.emod_eq_zero_of_dvd hd, by omega, by omega,
    by omega, by omega⟩

/-- Witness for C20: for `newOffset = -10` and alignment 4 the C remainder is -2, the
padding is 2 and the entry lands at -8; the padding fits a 32-bit `int`. -/
theorem truncating_remainder_witness :
    (-10 : Int).tmod 4 = -2 ∧ padding 4 (-10) = .ok 2 ∧ (-10 + 2 : Int) = -8 ∧
    (∃ p, padding 4 (-10) = .ok p ∧
      p = (4 - (-10 : Int).tmod 4).tmod 4 ∧ 0 ≤ p ∧ p < 4 ∧
      (4 : Int) ∣ -10 + p ∧ (-10 + p).tmod 4 = 0 ∧ (-10 + p) % 4 = 0 ∧
      -2147483647 - 1 ≤ p ∧ p ≤ 2147483647 ∧
      0 < 4 - (-10 : Int).tmod 4 ∧ 4 - (-10 : Int).tmod 4 < 2 * 4) :=
  ⟨rfl, rfl, rfl,
   (truncating_remainder (-10) 4 2147483647 (by decide) (by decide)).2.2⟩

end ZipAlign
